import Mathlib

/-!
Shallow embedding of the limit-order-book matching engine
(src/types.hpp, src/order_book.hpp, src/order_book.cpp, src/matching_engine.hpp).

Prices and quantities are `Int` (C++ `std::int64_t`); identifiers are `Nat`
(C++ `std::uint64_t`).  The two `std::map` sides of the book are modelled as
association lists sorted by the map's comparator (bids descending, asks
ascending); `std::deque<Order>` of a price level is a `List Order`.
-/

namespace LOB

/-- `enum class Side { Buy, Sell }` from types.hpp. -/
inductive Side where
  | Buy : Side
  | Sell : Side
deriving DecidableEq, Repr

/-- `struct Order` from types.hpp. -/
structure Order where
  id : Nat
  side : Side
  price : Int
  qty : Int
  ts_ns : Nat
deriving DecidableEq, Repr

/-- `struct Trade` from types.hpp. -/
structure Trade where
  taker_id : Nat
  maker_id : Nat
  price : Int
  qty : Int
deriving DecidableEq, Repr

/-- `struct PriceLevel` from order_book.hpp: a FIFO of orders plus the cached
aggregate quantity. -/
structure PriceLevel where
  orders : List Order
  total_qty : Int
deriving DecidableEq, Repr

/-- One side of the book: a `std::map<price, PriceLevel>` modelled as an
association list sorted by the side's comparator. -/
abbrev BookSide := List (Int × PriceLevel)

/-- `class OrderBook` (order_book.hpp): bids sorted descending, asks sorted
ascending. -/
structure OrderBook where
  bids : BookSide
  asks : BookSide
deriving DecidableEq, Repr

/-- The `book[o.price]; level.total_qty += o.qty; level.orders.push_back(o)`
step of `OrderBook::add`, on a side sorted by the strict comparator `lt`
(mirrors `std::map::operator[]` find-or-insert followed by the updates). -/
def insertLevel (lt : Int → Int → Bool) (o : Order) : BookSide → BookSide
  | [] => [(o.price, PriceLevel.mk [o] o.qty)]
  | (p, l) :: rest =>
    if lt o.price p then
      (o.price, PriceLevel.mk [o] o.qty) :: (p, l) :: rest
    else if o.price = p then
      (p, PriceLevel.mk (l.orders ++ [o]) (l.total_qty + o.qty)) :: rest
    else
      (p, l) :: insertLevel lt o rest

/-- Comparator of `bids_` (`std::greater<>`). -/
def bidLt (a b : Int) : Bool := b < a

/-- Comparator of `asks_` (`std::less<>`). -/
def askLt (a b : Int) : Bool := a < b

/-- `OrderBook::add` (order_book.cpp lines 12-23). -/
def OrderBook.add (b : OrderBook) (o : Order) : OrderBook :=
  match o.side with
  | Side.Buy => OrderBook.mk (insertLevel bidLt o b.bids) b.asks
  | Side.Sell => OrderBook.mk b.bids (insertLevel askLt o b.asks)

/-- The inner `while (incoming.qty > 0 && !level.orders.empty())` walk of
`OrderBook::match` at the level keyed `p`.  Returns the taker's remaining
quantity, the level's remaining FIFO, and the trade sink with the new trades
appended. -/
def matchLevel (tid : Nat) (p : Int) :
    Int → List Order → List Trade → Int × List Order × List Trade
  | tq, [], acc => (tq, [], acc)
  | tq, maker :: rest, acc =>
    if tq ≤ 0 then (tq, maker :: rest, acc)
    else
      let exec := min tq maker.qty
      let tq' := tq - exec
      let mq' := maker.qty - exec
      let acc' := acc ++ [Trade.mk tid maker.id p exec]
      if mq' = 0 then matchLevel tid p tq' rest acc'
      else (tq', Order.mk maker.id maker.side maker.price mq' maker.ts_ns :: rest, acc')

/-- The outer `while (incoming.qty > 0 && !side.empty())` loop of
`OrderBook::match` over the opposite side's levels, best level first.
`cross p` is the crossability test (`!(incoming.price < p)` for a Buy taker,
`!(incoming.price > p)` for a Sell taker); a level whose FIFO drains is
erased, as in `asks_.erase(it)`. -/
def matchSide (tid : Nat) (cross : Int → Bool) :
    Int → BookSide → List Trade → Int × BookSide × List Trade
  | tq, [], acc => (tq, [], acc)
  | tq, (p, level) :: rest, acc =>
    if tq ≤ 0 then (tq, (p, level) :: rest, acc)
    else if ¬ cross p then (tq, (p, level) :: rest, acc)
    else
      let r := matchLevel tid p tq level.orders acc
      if r.2.1 = [] then matchSide tid cross r.1 rest r.2.2
      else (r.1, (p, PriceLevel.mk r.2.1 (level.total_qty - (tq - r.1))) :: rest, r.2.2)

/-- `OrderBook::match` (order_book.cpp lines 25-85): returns the updated book,
the incoming order with its remaining quantity, and the caller's trade vector
with the emitted trades appended. -/
def OrderBook.matchOrder (b : OrderBook) (inc : Order) (tr : List Trade) :
    OrderBook × Order × List Trade :=
  if inc.qty ≤ 0 then (b, inc, tr)
  else
    match inc.side with
    | Side.Buy =>
      let r := matchSide inc.id (fun p => ¬ (inc.price < p)) inc.qty b.asks tr
      (OrderBook.mk b.bids r.2.1,
       Order.mk inc.id inc.side inc.price r.1 inc.ts_ns, r.2.2)
    | Side.Sell =>
      let r := matchSide inc.id (fun p => ¬ (inc.price > p)) inc.qty b.bids tr
      (OrderBook.mk r.2.1 b.asks,
       Order.mk inc.id inc.side inc.price r.1 inc.ts_ns, r.2.2)

/-- `OrderBook::best_bid` (order_book.cpp lines 88-93): first key of `bids_`,
or the sentinel 0 when empty. -/
def OrderBook.best_bid (b : OrderBook) : Int :=
  match b.bids with
  | [] => 0
  | (p, _) :: _ => p

/-- `OrderBook::best_ask` (order_book.cpp lines 95-100). -/
def OrderBook.best_ask (b : OrderBook) : Int :=
  match b.asks with
  | [] => 0
  | (p, _) :: _ => p

/-- `MatchingEngine::process` (matching_engine.hpp lines 15-25): match the
incoming order, then post the residual when its quantity is still positive.
The latency bookkeeping (`now_ns`, `latency_.add`) touches neither the book
nor the trades and is not part of the model. -/
def process (b : OrderBook) (o : Order) (tr : List Trade) :
    OrderBook × List Trade :=
  let r := b.matchOrder o tr
  if 0 < r.2.1.qty then (r.1.add r.2.1, r.2.2) else (r.1, r.2.2)

/-- A default-constructed `OrderBook`: both sides empty. -/
def emptyBook : OrderBook := OrderBook.mk [] []

/-- Submitting a sequence of orders to a fresh engine, collecting every emitted
trade in call order (the caller keeps a single accumulating sink). -/
def runEngine (os : List Order) : OrderBook × List Trade :=
  os.foldl (fun s o => process s.1 o s.2) (emptyBook, [])

/-- The book reached after submitting a sequence of orders to a fresh engine. -/
def runBook (os : List Order) : OrderBook := (runEngine os).1

example :
    runEngine [Order.mk 1 Side.Sell 100 10 0, Order.mk 2 Side.Buy 100 4 1] =
      (OrderBook.mk [] [(100, PriceLevel.mk [Order.mk 1 Side.Sell 100 6 0] 6)],
       [Trade.mk 2 1 100 4]) := by decide

example :
    runEngine [Order.mk 1 Side.Sell 100 5 0, Order.mk 2 Side.Sell 101 5 0,
               Order.mk 3 Side.Buy 101 8 0] =
      (OrderBook.mk [] [(101, PriceLevel.mk [Order.mk 2 Side.Sell 101 2 0] 2)],
       [Trade.mk 3 1 100 5, Trade.mk 3 2 101 3]) := by decide

example :
    runEngine [Order.mk 1 Side.Sell 100 3 0, Order.mk 2 Side.Sell 100 7 0,
               Order.mk 3 Side.Buy 100 4 0] =
      (OrderBook.mk [] [(100, PriceLevel.mk [Order.mk 2 Side.Sell 100 6 0] 6)],
       [Trade.mk 3 1 100 3, Trade.mk 3 2 100 1]) := by decide

example :
    runBook [Order.mk 1 Side.Sell 101 5 0, Order.mk 2 Side.Buy 100 5 0] =
      OrderBook.mk [(100, PriceLevel.mk [Order.mk 2 Side.Buy 100 5 0] 5)]
        [(101, PriceLevel.mk [Order.mk 1 Side.Sell 101 5 0] 5)] := by decide

example :
    runEngine [Order.mk 1 Side.Sell 100 3 0, Order.mk 2 Side.Buy 100 10 0] =
      (OrderBook.mk [(100, PriceLevel.mk [Order.mk 2 Side.Buy 100 7 0] 7)] [],
       [Trade.mk 2 1 100 3]) := by decide

/-! ### Trades are appended to the caller's sink -/

theorem matchLevel_append (tid : Nat) (p : Int) (orders : List Order) :
    ∀ (tq : Int) (acc : List Trade),
      matchLevel tid p tq orders acc =
        ((matchLevel tid p tq orders []).1, (matchLevel tid p tq orders []).2.1,
         acc ++ (matchLevel tid p tq orders []).2.2) := by
  induction orders with
  | nil => intro tq acc; simp [matchLevel]
  | cons maker rest ih =>
    intro tq acc
    by_cases h1 : tq ≤ 0
    · simp [matchLevel, h1]
    · by_cases h2 : maker.qty - min tq maker.qty = 0
      · simp only [matchLevel, if_neg h1, if_pos h2]
        rw [ih, ih (tq - min tq maker.qty) ([] ++ [Trade.mk tid maker.id p (min tq maker.qty)])]
        simp
      · simp [matchLevel, h1, h2]

theorem matchSide_append (tid : Nat) (cross : Int → Bool) (lvls : BookSide) :
    ∀ (tq : Int) (acc : List Trade),
      matchSide tid cross tq lvls acc =
        ((matchSide tid cross tq lvls []).1, (matchSide tid cross tq lvls []).2.1,
         acc ++ (matchSide tid cross tq lvls []).2.2) := by
  induction lvls with
  | nil => intro tq acc; simp [matchSide]
  | cons pl rest ih =>
    intro tq acc
    by_cases h1 : tq ≤ 0
    · simp [matchSide, h1]
    · by_cases h2 : cross pl.1
      · by_cases h3 : (matchLevel tid pl.1 tq pl.2.orders []).2.1 = []
        · have e1 : ∀ a : List Trade,
              matchSide tid cross tq (pl :: rest) a =
                matchSide tid cross (matchLevel tid pl.1 tq pl.2.orders []).1 rest
                  (a ++ (matchLevel tid pl.1 tq pl.2.orders []).2.2) := by
            intro a
            simp only [matchSide, if_neg h1, h2, not_true_eq_false, if_false]
            rw [matchLevel_append tid pl.1 pl.2.orders tq a]
            simp [h3]
          rw [e1 acc, e1 [],
            ih ((matchLevel tid pl.1 tq pl.2.orders []).1)
              (acc ++ (matchLevel tid pl.1 tq pl.2.orders []).2.2),
            ih ((matchLevel tid pl.1 tq pl.2.orders []).1)
              ([] ++ (matchLevel tid pl.1 tq pl.2.orders []).2.2)]
          simp
        · simp only [matchSide, if_neg h1, h2, not_true_eq_false, if_false]
          rw [matchLevel_append tid pl.1 pl.2.orders tq acc]
          simp [h3]
      · simp [matchSide, h1, h2]

/-! ### Mass conservation -/

theorem matchLevel_sum (tid : Nat) (p : Int) (orders : List Order) :
    ∀ tq : Int,
      (((matchLevel tid p tq orders []).2.2).map Trade.qty).sum =
        tq - (matchLevel tid p tq orders []).1 := by
  induction orders with
  | nil => intro tq; simp [matchLevel]
  | cons maker rest ih =>
    intro tq
    by_cases h1 : tq ≤ 0
    · simp [matchLevel, h1]
    · by_cases h2 : maker.qty - min tq maker.qty = 0
      · simp only [matchLevel, if_neg h1, if_pos h2]
        rw [matchLevel_append tid p rest (tq - min tq maker.qty)
              ([] ++ [Trade.mk tid maker.id p (min tq maker.qty)])]
        simp only [List.nil_append, List.map_append, List.sum_append, List.map_cons,
          List.map_nil, List.sum_cons, List.sum_nil]
        rw [ih (tq - min tq maker.qty)]
        ring
      · simp [matchLevel, h1, h2]

theorem matchSide_sum (tid : Nat) (cross : Int → Bool) (lvls : BookSide) :
    ∀ tq : Int,
      (((matchSide tid cross tq lvls []).2.2).map Trade.qty).sum =
        tq - (matchSide tid cross tq lvls []).1 := by
  induction lvls with
  | nil => intro tq; simp [matchSide]
  | cons pl rest ih =>
    intro tq
    by_cases h1 : tq ≤ 0
    · simp [matchSide, h1]
    · by_cases h2 : cross pl.1
      · by_cases h3 : (matchLevel tid pl.1 tq pl.2.orders []).2.1 = []
        · have e1 : matchSide tid cross tq (pl :: rest) [] =
              matchSide tid cross (matchLevel tid pl.1 tq pl.2.orders []).1 rest
                ((matchLevel tid pl.1 tq pl.2.orders []).2.2) := by
            simp only [matchSide, if_neg h1, h2, not_true_eq_false, if_false]
            simp [h3]
          rw [e1, matchSide_append tid cross rest
                ((matchLevel tid pl.1 tq pl.2.orders []).1)
                ((matchLevel tid pl.1 tq pl.2.orders []).2.2)]
          simp only [List.map_append, List.sum_append]
          rw [matchLevel_sum tid pl.1 pl.2.orders tq, ih]
          ring
        · have e2 : matchSide tid cross tq (pl :: rest) [] =
              ((matchLevel tid pl.1 tq pl.2.orders []).1,
               (pl.1, PriceLevel.mk (matchLevel tid pl.1 tq pl.2.orders []).2.1
                 (pl.2.total_qty - (tq - (matchLevel tid pl.1 tq pl.2.orders []).1))) :: rest,
               (matchLevel tid pl.1 tq pl.2.orders []).2.2) := by
            simp only [matchSide, if_neg h1, h2, not_true_eq_false, if_false]
            simp [h3]
          rw [e2]
          exact matchLevel_sum tid pl.1 pl.2.orders tq
      · simp [matchSide, h1, h2]

/-- Claim C1: for every submitted order with positive quantity, the sum of the
quantities of the trades emitted by that submit plus the residual quantity
left on the taker (the quantity that rests when positive) equals the incoming
order's original quantity. -/
theorem mass_conservation (b : OrderBook) (o : Order) (h : 0 < o.qty) :
    (((b.matchOrder o []).2.2).map Trade.qty).sum + (b.matchOrder o []).2.1.qty
      = o.qty := by
  unfold OrderBook.matchOrder
  rw [if_neg (by omega)]
  cases o.side with
  | Buy => simp [matchSide_sum]
  | Sell => simp [matchSide_sum]

/-- Witness for C1 (spec scenario S1). -/
theorem mass_conservation_witness :
    ((((emptyBook.add (Order.mk 1 Side.Sell 100 10 0)).matchOrder
        (Order.mk 2 Side.Buy 100 4 1) []).2.2).map Trade.qty).sum +
      ((emptyBook.add (Order.mk 1 Side.Sell 100 10 0)).matchOrder
        (Order.mk 2 Side.Buy 100 4 1) []).2.1.qty = 4 :=
  mass_conservation (emptyBook.add (Order.mk 1 Side.Sell 100 10 0))
    (Order.mk 2 Side.Buy 100 4 1) (by decide)

theorem process_eq_of_qty_nonpos (b : OrderBook) (o : Order) (tr : List Trade)
    (h : o.qty ≤ 0) : process b o tr = (b, tr) := by
  have h2 : ¬ 0 < o.qty := by omega
  simp [process, OrderBook.matchOrder, h, h2]

/-- Claim C10: submitting an order whose quantity is not positive is a silent,
state-preserving no-op: `MatchingEngine::process` emits no trades and returns
the book unchanged, and no error is signalled (the function has no error
channel). -/
theorem qty_nonpos_noop (b : OrderBook) (o : Order) (tr : List Trade)
    (h : o.qty ≤ 0) : process b o tr = (b, tr) :=
  process_eq_of_qty_nonpos b o tr h

/-! ### Termination of the match loop (fuel-indexed reading) -/

/-- The inner match walk instrumented with fuel: one unit is spent per loop
iteration, `none` meaning the iteration budget ran out. -/
def matchLevelFuel (tid : Nat) (p : Int) :
    Nat → Int → List Order → List Trade → Option (Int × List Order × List Trade)
  | 0, _, _, _ => none
  | _ + 1, tq, [], acc => some (tq, [], acc)
  | fuel + 1, tq, maker :: rest, acc =>
    if tq ≤ 0 then some (tq, maker :: rest, acc)
    else
      let exec := min tq maker.qty
      let tq' := tq - exec
      let mq' := maker.qty - exec
      let acc' := acc ++ [Trade.mk tid maker.id p exec]
      if mq' = 0 then matchLevelFuel tid p fuel tq' rest acc'
      else some (tq', Order.mk maker.id maker.side maker.price mq' maker.ts_ns :: rest, acc')

/-- The outer match loop instrumented with fuel, sharing one budget with the
inner walk. -/
def matchSideFuel (tid : Nat) (cross : Int → Bool) :
    Nat → Int → BookSide → List Trade → Option (Int × BookSide × List Trade)
  | 0, _, _, _ => none
  | _ + 1, tq, [], acc => some (tq, [], acc)
  | fuel + 1, tq, (p, level) :: rest, acc =>
    if tq ≤ 0 then some (tq, (p, level) :: rest, acc)
    else if ¬ cross p then some (tq, (p, level) :: rest, acc)
    else
      match matchLevelFuel tid p fuel tq level.orders acc with
      | none => none
      | some r =>
        if r.2.1 = [] then matchSideFuel tid cross fuel r.1 rest r.2.2
        else some (r.1, (p, PriceLevel.mk r.2.1 (level.total_qty - (tq - r.1))) :: rest, r.2.2)

/-- `OrderBook::match` with an explicit iteration budget. -/
def matchOrderFuel (fuel : Nat) (b : OrderBook) (inc : Order) (tr : List Trade) :
    Option (OrderBook × Order × List Trade) :=
  if inc.qty ≤ 0 then some (b, inc, tr)
  else
    match inc.side with
    | Side.Buy =>
      match matchSideFuel inc.id (fun p => ¬ (inc.price < p)) fuel inc.qty b.asks tr with
      | none => none
      | some r =>
        some (OrderBook.mk b.bids r.2.1,
          Order.mk inc.id inc.side inc.price r.1 inc.ts_ns, r.2.2)
    | Side.Sell =>
      match matchSideFuel inc.id (fun p => ¬ (inc.price > p)) fuel inc.qty b.bids tr with
      | none => none
      | some r =>
        some (OrderBook.mk r.2.1 b.asks,
          Order.mk inc.id inc.side inc.price r.1 inc.ts_ns, r.2.2)

/-- The finite resource the loop consumes: one unit per resting maker plus one
per price level of a side. -/
def sideFuel (lvls : BookSide) : Nat :=
  lvls.foldr (fun pl n => pl.2.orders.length + 1 + n) 0

/-- Iteration budget that suffices for a whole `match` call: the opposite
side's makers plus levels, plus one. -/
def matchFuelBound (b : OrderBook) (inc : Order) : Nat :=
  match inc.side with
  | Side.Buy => sideFuel b.asks + 1
  | Side.Sell => sideFuel b.bids + 1

theorem matchLevelFuel_eq (tid : Nat) (p : Int) (orders : List Order) :
    ∀ (fuel : Nat) (tq : Int) (acc : List Trade), orders.length < fuel →
      matchLevelFuel tid p fuel tq orders acc = some (matchLevel tid p tq orders acc) := by
  induction orders with
  | nil =>
    intro fuel tq acc hf
    cases fuel with
    | zero => omega
    | succ f => simp [matchLevelFuel, matchLevel]
  | cons maker rest ih =>
    intro fuel tq acc hf
    cases fuel with
    | zero => simp at hf
    | succ f =>
      by_cases h1 : tq ≤ 0
      · simp [matchLevelFuel, matchLevel, h1]
      · by_cases h2 : maker.qty - min tq maker.qty = 0
        · simp only [matchLevelFuel, matchLevel, if_neg h1, if_pos h2]
          exact ih f _ _ (by simp at hf; omega)
        · simp [matchLevelFuel, matchLevel, h1, h2]

theorem matchSideFuel_eq (tid : Nat) (cross : Int → Bool) (lvls : BookSide) :
    ∀ (fuel : Nat) (tq : Int) (acc : List Trade), sideFuel lvls < fuel →
      matchSideFuel tid cross fuel tq lvls acc = some (matchSide tid cross tq lvls acc) := by
  induction lvls with
  | nil =>
    intro fuel tq acc hf
    cases fuel with
    | zero => omega
    | succ f => simp [matchSideFuel, matchSide]
  | cons pl rest ih =>
    intro fuel tq acc hf
    have hb : sideFuel (pl :: rest) = pl.2.orders.length + 1 + sideFuel rest := rfl
    cases fuel with
    | zero => omega
    | succ f =>
      by_cases h1 : tq ≤ 0
      · simp [matchSideFuel, matchSide, h1]
      · by_cases h2 : cross pl.1
        · have hinner := matchLevelFuel_eq tid pl.1 pl.2.orders f tq acc (by omega)
          by_cases h3 : (matchLevel tid pl.1 tq pl.2.orders acc).2.1 = []
          · simp only [matchSideFuel, matchSide, if_neg h1, h2, not_true_eq_false,
              if_false, hinner]
            simp only [h3, if_pos rfl]
            exact ih f _ _ (by omega)
          · simp only [matchSideFuel, matchSide, if_neg h1, h2, not_true_eq_false,
              if_false, hinner]
            simp [h3]
        · simp [matchSideFuel, matchSide, h1, h2]

/-- Claim C9: `OrderBook::match` terminates on every input order and every book
state: a fuel budget linear in the opposite side's finite resources (one unit
per resting maker and one per price level, plus one) always suffices for the
loop to run to completion and produce the result of `matchOrder`, because each
iteration either drains a maker, erases a level, or exits. -/
theorem match_terminates (b : OrderBook) (inc : Order) (tr : List Trade) :
    matchOrderFuel (matchFuelBound b inc) b inc tr = some (b.matchOrder inc tr) := by
  unfold matchOrderFuel OrderBook.matchOrder matchFuelBound
  by_cases h1 : inc.qty ≤ 0
  · simp [h1]
  · cases hs : inc.side with
    | Buy =>
      rw [if_neg h1, if_neg h1]
      simp only
      rw [matchSideFuel_eq inc.id (fun p => ¬ (inc.price < p)) b.asks
            (sideFuel b.asks + 1) inc.qty tr (by omega)]
    | Sell =>
      rw [if_neg h1, if_neg h1]
      simp only
      rw [matchSideFuel_eq inc.id (fun p => ¬ (inc.price > p)) b.bids
            (sideFuel b.bids + 1) inc.qty tr (by omega)]

/-- Witness for C10. -/
theorem qty_nonpos_noop_witness :
    process (emptyBook.add (Order.mk 1 Side.Sell 100 10 0))
        (Order.mk 2 Side.Buy 100 0 1) [] =
      (emptyBook.add (Order.mk 1 Side.Sell 100 10 0), []) :=
  qty_nonpos_noop (emptyBook.add (Order.mk 1 Side.Sell 100 10 0))
    (Order.mk 2 Side.Buy 100 0 1) [] (by decide)

/-! ### Book invariants -/

/-- A well-formed price level: a non-empty FIFO of positive-quantity orders
priced at the level's key, with the cached `total_qty` equal to their sum. -/
def goodLevel (p : Int) (l : PriceLevel) : Prop :=
  l.orders ≠ [] ∧ l.total_qty = (l.orders.map Order.qty).sum ∧
    ∀ o ∈ l.orders, 0 < o.qty ∧ o.price = p

instance (p : Int) (l : PriceLevel) : Decidable (goodLevel p l) :=
  inferInstanceAs (Decidable (l.orders ≠ [] ∧ l.total_qty = (l.orders.map Order.qty).sum ∧
    ∀ o ∈ l.orders, 0 < o.qty ∧ o.price = p))

/-- A side's keys are strictly sorted by the side's comparator (the `std::map`
ordering: bids descending, asks ascending). -/
def sortedSide (lt : Int → Int → Bool) (lvls : BookSide) : Prop :=
  List.Chain' (fun a b => lt a b = true) (lvls.map Prod.fst)

/-- Executable sortedness check used only to decide `sortedSide`. -/
def sortedSideB (lt : Int → Int → Bool) : List Int → Bool
  | [] => true
  | [_] => true
  | a :: b :: rest => lt a b && sortedSideB lt (b :: rest)

theorem sortedSideB_iff (lt : Int → Int → Bool) : ∀ keys : List Int,
    (sortedSideB lt keys = true ↔ List.Chain' (fun a b => lt a b = true) keys)
  | [] => by simp [sortedSideB]
  | [a] => by simp [sortedSideB]
  | a :: b :: rest => by
    rw [sortedSideB, List.chain'_cons, Bool.and_eq_true, sortedSideB_iff lt (b :: rest)]

instance (lt : Int → Int → Bool) (lvls : BookSide) : Decidable (sortedSide lt lvls) :=
  decidable_of_iff (sortedSideB lt (lvls.map Prod.fst) = true)
    (sortedSideB_iff lt (lvls.map Prod.fst))

/-- The book's structural invariant: both sides sorted, every level
well-formed, and the book not crossed at rest. -/
def Inv (b : OrderBook) : Prop :=
  sortedSide bidLt b.bids ∧ sortedSide askLt b.asks ∧
    (∀ pl ∈ b.bids, goodLevel pl.1 pl.2) ∧
    (∀ pl ∈ b.asks, goodLevel pl.1 pl.2) ∧
    (b.bids ≠ [] → b.asks ≠ [] → b.best_bid < b.best_ask)

instance (b : OrderBook) : Decidable (Inv b) :=
  inferInstanceAs (Decidable (sortedSide bidLt b.bids ∧ sortedSide askLt b.asks ∧
    (∀ pl ∈ b.bids, goodLevel pl.1 pl.2) ∧
    (∀ pl ∈ b.asks, goodLevel pl.1 pl.2) ∧
    (b.bids ≠ [] → b.asks ≠ [] → b.best_bid < b.best_ask)))

theorem insertLevel_headkey (lt : Int → Int → Bool) (o : Order) (lvls : BookSide)
    (q : Int × PriceLevel) (hq : (insertLevel lt o lvls).head? = some q) :
    q.1 = o.price ∨ ∃ hd, lvls.head? = some hd ∧ q.1 = hd.1 := by
  cases lvls with
  | nil =>
    simp [insertLevel] at hq
    left; rw [← hq]
  | cons pl rest =>
    by_cases h1 : lt o.price pl.1
    · left
      have : insertLevel lt o (pl :: rest) =
          (o.price, PriceLevel.mk [o] o.qty) :: pl :: rest := by
        cases pl with
        | mk p l => simp [insertLevel, h1]
      rw [this] at hq
      simp at hq
      rw [← hq]
    · by_cases h2 : o.price = pl.1
      · right
        have : insertLevel lt o (pl :: rest) =
            (pl.1, PriceLevel.mk (pl.2.orders ++ [o]) (pl.2.total_qty + o.qty)) :: rest := by
          cases pl with
          | mk p l =>
            have hp : o.price = p := h2
            have h1x : ¬ lt p p = true := by rw [← hp]; exact hp ▸ h1
            simp [insertLevel, h1x, hp]
        rw [this] at hq
        simp at hq
        exact ⟨pl, rfl, by rw [← hq]⟩
      · right
        have : insertLevel lt o (pl :: rest) = pl :: insertLevel lt o rest := by
          cases pl with
          | mk p l =>
            simp only at h1 h2
            simp [insertLevel, h1, h2]
        rw [this] at hq
        simp at hq
        exact ⟨pl, rfl, by rw [← hq]⟩

theorem insertLevel_sorted (lt : Int → Int → Bool)
    (htot : ∀ a b : Int, lt a b = false → a ≠ b → lt b a = true) (o : Order) :
    ∀ lvls : BookSide, sortedSide lt lvls → sortedSide lt (insertLevel lt o lvls) := by
  intro lvls
  induction lvls with
  | nil => intro _; simp [insertLevel, sortedSide]
  | cons pl rest ih =>
    intro h
    by_cases h1 : lt o.price pl.1
    · have e : insertLevel lt o (pl :: rest) =
          (o.price, PriceLevel.mk [o] o.qty) :: pl :: rest := by
        cases pl with
        | mk p l => simp [insertLevel, h1]
      rw [sortedSide, e]
      simp only [List.map_cons]
      exact List.chain'_cons.2 ⟨h1, h⟩
    · by_cases h2 : o.price = pl.1
      · have e : insertLevel lt o (pl :: rest) =
            (pl.1, PriceLevel.mk (pl.2.orders ++ [o]) (pl.2.total_qty + o.qty)) :: rest := by
          cases pl with
          | mk p l =>
            have hp : o.price = p := h2
            have h1x : ¬ lt p p = true := by rw [← hp]; exact hp ▸ h1
            simp [insertLevel, h1x, hp]
        rw [sortedSide, e]
        simp only [List.map_cons]
        exact h
      · have e : insertLevel lt o (pl :: rest) = pl :: insertLevel lt o rest := by
          cases pl with
          | mk p l =>
            simp only at h1 h2
            simp [insertLevel, h1, h2]
        rw [sortedSide, e]
        simp only [List.map_cons]
        rw [sortedSide] at h
        simp only [List.map_cons] at h
        have hh := List.chain'_cons'.1 h
        apply List.chain'_cons'.2
        constructor
        · intro y hy
          rw [List.head?_map] at hy
          cases hins : (insertLevel lt o rest).head? with
          | none => rw [hins] at hy; simp at hy
          | some q =>
            rw [hins] at hy
            simp at hy
            rcases insertLevel_headkey lt o rest q hins with hc | ⟨hd, hhd, hkey⟩
            · rw [← hy, hc]
              exact htot o.price pl.1 (by simpa using h1) h2
            · rw [← hy, hkey]
              have := hh.1 hd.1
              rw [List.head?_map, hhd] at this
              exact this (by simp)
        · exact ih hh.2

theorem insertLevel_good (lt : Int → Int → Bool) (o : Order) (ho : 0 < o.qty) :
    ∀ lvls : BookSide, (∀ pl ∈ lvls, goodLevel pl.1 pl.2) →
      ∀ pl ∈ insertLevel lt o lvls, goodLevel pl.1 pl.2 := by
  intro lvls
  induction lvls with
  | nil =>
    intro _ pl hpl
    simp [insertLevel] at hpl
    rw [hpl]
    refine ⟨by simp, by simp, ?_⟩
    intro x hx
    simp at hx
    rw [hx]
    exact ⟨ho, rfl⟩
  | cons hd rest ih =>
    intro h pl hpl
    by_cases h1 : lt o.price hd.1
    · have e : insertLevel lt o (hd :: rest) =
          (o.price, PriceLevel.mk [o] o.qty) :: hd :: rest := by
        cases hd with
        | mk p l => simp [insertLevel, h1]
      rw [e] at hpl
      rcases List.mem_cons.1 hpl with hc | hc
      · rw [hc]
        refine ⟨by simp, by simp, ?_⟩
        intro x hx
        simp at hx
        rw [hx]
        exact ⟨ho, rfl⟩
      · exact h pl hc
    · by_cases h2 : o.price = hd.1
      · have e : insertLevel lt o (hd :: rest) =
            (hd.1, PriceLevel.mk (hd.2.orders ++ [o]) (hd.2.total_qty + o.qty)) :: rest := by
          cases hd with
          | mk p l =>
            have hp : o.price = p := h2
            have h1x : ¬ lt p p = true := by rw [← hp]; exact hp ▸ h1
            simp [insertLevel, h1x, hp]
        rw [e] at hpl
        rcases List.mem_cons.1 hpl with hc | hc
        · have hg := h hd (List.mem_cons_self hd rest)
          rw [hc]
          refine ⟨by simp, ?_, ?_⟩
          · simp [hg.2.1]
          · intro x hx
            rcases List.mem_append.1 hx with hm | hm
            · exact hg.2.2 x hm
            · simp at hm
              rw [hm]
              exact ⟨ho, h2⟩
        · exact h pl (List.mem_cons_of_mem hd hc)
      · have e : insertLevel lt o (hd :: rest) = hd :: insertLevel lt o rest := by
          cases hd with
          | mk p l =>
            simp only at h1 h2
            simp [insertLevel, h1, h2]
        rw [e] at hpl
        rcases List.mem_cons.1 hpl with hc | hc
        · rw [hc]; exact h hd (List.mem_cons_self hd rest)
        · exact ih (fun x hx => h x (List.mem_cons_of_mem hd hx)) pl hc

/-! ### Shape of the book after a match -/

theorem matchLevel_exit (tid : Nat) (p : Int) (orders : List Order) :
    ∀ (tq : Int) (acc : List Trade),
      (matchLevel tid p tq orders acc).2.1 ≠ [] →
      (matchLevel tid p tq orders acc).1 ≤ 0 := by
  induction orders with
  | nil => intro tq acc h; simp [matchLevel] at h
  | cons maker rest ih =>
    intro tq acc h
    by_cases h1 : tq ≤ 0
    · simp [matchLevel, h1]
    · by_cases h2 : maker.qty - min tq maker.qty = 0
      · rw [matchLevel] at h ⊢
        simp only [if_neg h1, if_pos h2] at h ⊢
        exact ih _ _ h
      · rw [matchLevel] at h ⊢
        simp only [if_neg h1, if_neg h2] at h ⊢
        have : min tq maker.qty = tq := by
          rcases le_total tq maker.qty with hle | hle
          · exact min_eq_left hle
          · exfalso; apply h2; rw [min_eq_right hle]; ring
        omega

theorem matchLevel_keep (tid : Nat) (p : Int) (orders : List Order) :
    ∀ (tq : Int) (acc : List Trade),
      (∀ o ∈ orders, 0 < o.qty ∧ o.price = p) →
      (∀ o ∈ (matchLevel tid p tq orders acc).2.1, 0 < o.qty ∧ o.price = p) ∧
      (((matchLevel tid p tq orders acc).2.1.map Order.qty).sum
        = (orders.map Order.qty).sum - (tq - (matchLevel tid p tq orders acc).1)) := by
  induction orders with
  | nil => intro tq acc _; simp [matchLevel]
  | cons maker rest ih =>
    intro tq acc h
    by_cases h1 : tq ≤ 0
    · constructor
      · simpa [matchLevel, h1] using h
      · simp [matchLevel, h1]
    · by_cases h2 : maker.qty - min tq maker.qty = 0
      · rw [matchLevel]
        simp only [if_neg h1, if_pos h2]
        have hrest := ih (tq - min tq maker.qty) (acc ++ [Trade.mk tid maker.id p (min tq maker.qty)])
          (fun o ho => h o (List.mem_cons_of_mem maker ho))
        refine ⟨hrest.1, ?_⟩
        rw [hrest.2]
        have hm : min tq maker.qty = maker.qty := by omega
        simp [hm]
        ring
      · rw [matchLevel]
        simp only [if_neg h1, if_neg h2]
        constructor
        · intro o ho
          rcases List.mem_cons.1 ho with hc | hc
          · rw [hc]
            refine ⟨?_, (h maker (List.mem_cons_self maker rest)).2⟩
            simp only
            have := min_le_right tq maker.qty
            omega
          · exact h o (List.mem_cons_of_mem maker hc)
        · simp only [List.map_cons, List.sum_cons]
          ring

theorem matchSide_exit (tid : Nat) (cross : Int → Bool) (lvls : BookSide) :
    ∀ (tq : Int) (acc : List Trade),
      0 < (matchSide tid cross tq lvls acc).1 →
      (matchSide tid cross tq lvls acc).2.1 = [] ∨
        ∃ q, ((matchSide tid cross tq lvls acc).2.1).head? = some q ∧ cross q.1 = false := by
  induction lvls with
  | nil => intro tq acc _; left; simp [matchSide]
  | cons pl rest ih =>
    intro tq acc hpos
    by_cases h1 : tq ≤ 0
    · rw [matchSide] at hpos
      cases pl with
      | mk p l =>
        simp only [if_pos h1] at hpos
        omega
    · by_cases h2 : cross pl.1
      · by_cases h3 : (matchLevel tid pl.1 tq pl.2.orders acc).2.1 = []
        · rw [matchSide] at hpos ⊢
          cases pl with
          | mk p l =>
            simp only [if_neg h1, h2, not_true_eq_false, if_false] at hpos ⊢
            simp only [h3, if_pos rfl] at hpos ⊢
            exact ih _ _ hpos
        · exfalso
          rw [matchSide] at hpos
          cases pl with
          | mk p l =>
            simp only [if_neg h1, h2, not_true_eq_false, if_false] at hpos
            simp only [if_neg h3] at hpos
            have := matchLevel_exit tid p l.orders tq acc h3
            omega
      · right
        rw [matchSide]
        cases pl with
        | mk p l =>
          simp only [if_neg h1, h2]
          simp only [Bool.not_eq_true] at h2 ⊢
          simp [h2]


theorem matchSide_keys (tid : Nat) (cross : Int → Bool) (lvls : BookSide) :
    ∀ (tq : Int) (acc : List Trade), ∃ k : Nat,
      ((matchSide tid cross tq lvls acc).2.1).map Prod.fst = (lvls.map Prod.fst).drop k := by
  induction lvls with
  | nil => intro tq acc; exact ⟨0, by simp [matchSide]⟩
  | cons pl rest ih =>
    obtain ⟨p, l⟩ := pl
    intro tq acc
    by_cases h1 : tq ≤ 0
    · exact ⟨0, by rw [matchSide]; simp [h1]⟩
    · by_cases h2 : cross p
      · by_cases h3 : (matchLevel tid p tq l.orders acc).2.1 = []
        · obtain ⟨k, hk⟩ := ih (matchLevel tid p tq l.orders acc).1
            (matchLevel tid p tq l.orders acc).2.2
          refine ⟨k + 1, ?_⟩
          rw [matchSide]
          simp only [if_neg h1, h2, not_true_eq_false, if_false]
          simp only [h3, if_pos trivial] at hk ⊢
          rw [hk]
          simp
        · refine ⟨0, ?_⟩
          rw [matchSide]
          simp only [if_neg h1, h2, not_true_eq_false, if_false]
          simp [h3]
      · exact ⟨0, by rw [matchSide]; simp [h1, h2]⟩

theorem matchSide_good (tid : Nat) (cross : Int → Bool) (lvls : BookSide) :
    ∀ (tq : Int) (acc : List Trade),
      (∀ pl ∈ lvls, goodLevel pl.1 pl.2) →
      ∀ pl ∈ (matchSide tid cross tq lvls acc).2.1, goodLevel pl.1 pl.2 := by
  induction lvls with
  | nil => intro tq acc _; simp [matchSide]
  | cons pl rest ih =>
    obtain ⟨p, l⟩ := pl
    intro tq acc h
    by_cases h1 : tq ≤ 0
    · rw [matchSide]
      simp only [if_pos h1]
      exact h
    · by_cases h2 : cross p
      · by_cases h3 : (matchLevel tid p tq l.orders acc).2.1 = []
        · rw [matchSide]
          simp only [if_neg h1, h2, not_true_eq_false, if_false]
          simp only [h3, if_pos trivial]
          exact ih _ _ (fun x hx => h x (List.mem_cons_of_mem _ hx))
        · rw [matchSide]
          simp only [if_neg h1, h2, not_true_eq_false, if_false]
          simp only [if_neg h3]
          intro x hx
          rcases List.mem_cons.1 hx with hc | hc
          · have hgood := h (p, l) (List.mem_cons_self _ _)
            have hkeep := matchLevel_keep tid p l.orders tq acc
              (fun o ho => hgood.2.2 o ho)
            rw [hc]
            refine ⟨h3, ?_, hkeep.1⟩
            simp only
            rw [hkeep.2, ← hgood.2.1]
          · exact h x (List.mem_cons_of_mem _ hc)
      · rw [matchSide]
        simp only [if_neg h1, h2]
        simp only [Bool.false_eq_true, not_false_eq_true, if_pos]
        exact h

theorem chain_drop_head (r : Int → Int → Prop) (htr : Transitive r)
    (keys : List Int) (h : List.Chain' r keys) (k : Nat) (q : Int)
    (hq : (keys.drop k).head? = some q) :
    ∃ q0, keys.head? = some q0 ∧ (q0 = q ∨ r q0 q) := by
  cases keys with
  | nil => simp at hq
  | cons a tl =>
    refine ⟨a, rfl, ?_⟩
    cases k with
    | zero =>
      left
      simp at hq
      omega
    | succ k =>
      right
      have hqmem : q ∈ tl := by
        rw [List.drop_succ_cons] at hq
        have hmem : q ∈ tl.drop k := List.mem_of_mem_head? (Option.mem_def.2 hq)
        exact List.drop_subset k tl hmem
      haveI : IsTrans Int r := ⟨fun x y z hxy hyz => htr hxy hyz⟩
      have hp : List.Pairwise r (a :: tl) := List.chain'_iff_pairwise.1 h
      exact (List.pairwise_cons.1 hp).1 q hqmem

theorem best_bid_eq_head (bs as : BookSide) (pl : Int × PriceLevel)
    (hh : bs.head? = some pl) : (OrderBook.mk bs as).best_bid = pl.1 := by
  cases bs with
  | nil => simp at hh
  | cons hd t =>
    obtain ⟨p, l⟩ := hd
    simp at hh
    rw [← hh]
    rfl

theorem best_ask_eq_head (bs as : BookSide) (pl : Int × PriceLevel)
    (hh : as.head? = some pl) : (OrderBook.mk bs as).best_ask = pl.1 := by
  cases as with
  | nil => simp at hh
  | cons hd t =>
    obtain ⟨p, l⟩ := hd
    simp at hh
    rw [← hh]
    rfl

theorem bidLt_total (a b : Int) (h1 : bidLt a b = false) (h2 : a ≠ b) :
    bidLt b a = true := by
  simp [bidLt] at h1 ⊢
  omega

theorem askLt_total (a b : Int) (h1 : askLt a b = false) (h2 : a ≠ b) :
    askLt b a = true := by
  simp [askLt] at h1 ⊢
  omega

theorem asks_chain_lt (as : BookSide) (h : sortedSide askLt as) :
    List.Chain' (fun a b : Int => a < b) (as.map Prod.fst) :=
  List.Chain'.imp (fun a b hb => by simpa [askLt] using hb) h

theorem bids_chain_gt (as : BookSide) (h : sortedSide bidLt as) :
    List.Chain' (fun a b : Int => b < a) (as.map Prod.fst) :=
  List.Chain'.imp (fun a b hb => by simpa [bidLt] using hb) h

/-! ### Unfolding `matchOrder` and `process` by side -/

theorem matchOrder_buy (b : OrderBook) (oid : Nat) (opr oq : Int) (ots : Nat)
    (tr : List Trade) (hq : ¬ oq ≤ 0) :
    OrderBook.matchOrder b (Order.mk oid Side.Buy opr oq ots) tr =
      (OrderBook.mk b.bids (matchSide oid (fun p => ¬ (opr < p)) oq b.asks tr).2.1,
       Order.mk oid Side.Buy opr (matchSide oid (fun p => ¬ (opr < p)) oq b.asks tr).1 ots,
       (matchSide oid (fun p => ¬ (opr < p)) oq b.asks tr).2.2) := by
  simp only [OrderBook.matchOrder]
  rw [if_neg hq]

theorem matchOrder_sell (b : OrderBook) (oid : Nat) (opr oq : Int) (ots : Nat)
    (tr : List Trade) (hq : ¬ oq ≤ 0) :
    OrderBook.matchOrder b (Order.mk oid Side.Sell opr oq ots) tr =
      (OrderBook.mk (matchSide oid (fun p => ¬ (opr > p)) oq b.bids tr).2.1 b.asks,
       Order.mk oid Side.Sell opr (matchSide oid (fun p => ¬ (opr > p)) oq b.bids tr).1 ots,
       (matchSide oid (fun p => ¬ (opr > p)) oq b.bids tr).2.2) := by
  simp only [OrderBook.matchOrder]
  rw [if_neg hq]

theorem process_buy_res (b : OrderBook) (oid : Nat) (opr oq : Int) (ots : Nat)
    (tr : List Trade) (hq : ¬ oq ≤ 0)
    (hres : 0 < (matchSide oid (fun p => ¬ (opr < p)) oq b.asks tr).1) :
    process b (Order.mk oid Side.Buy opr oq ots) tr =
      (OrderBook.mk (insertLevel bidLt
          (Order.mk oid Side.Buy opr (matchSide oid (fun p => ¬ (opr < p)) oq b.asks tr).1 ots)
          b.bids)
        (matchSide oid (fun p => ¬ (opr < p)) oq b.asks tr).2.1,
       (matchSide oid (fun p => ¬ (opr < p)) oq b.asks tr).2.2) := by
  simp only [process, matchOrder_buy b oid opr oq ots tr hq]
  rw [if_pos hres]
  simp only [OrderBook.add]

theorem process_buy_nores (b : OrderBook) (oid : Nat) (opr oq : Int) (ots : Nat)
    (tr : List Trade) (hq : ¬ oq ≤ 0)
    (hres : ¬ 0 < (matchSide oid (fun p => ¬ (opr < p)) oq b.asks tr).1) :
    process b (Order.mk oid Side.Buy opr oq ots) tr =
      (OrderBook.mk b.bids (matchSide oid (fun p => ¬ (opr < p)) oq b.asks tr).2.1,
       (matchSide oid (fun p => ¬ (opr < p)) oq b.asks tr).2.2) := by
  simp only [process, matchOrder_buy b oid opr oq ots tr hq]
  rw [if_neg hres]

theorem process_sell_res (b : OrderBook) (oid : Nat) (opr oq : Int) (ots : Nat)
    (tr : List Trade) (hq : ¬ oq ≤ 0)
    (hres : 0 < (matchSide oid (fun p => ¬ (opr > p)) oq b.bids tr).1) :
    process b (Order.mk oid Side.Sell opr oq ots) tr =
      (OrderBook.mk (matchSide oid (fun p => ¬ (opr > p)) oq b.bids tr).2.1
        (insertLevel askLt
          (Order.mk oid Side.Sell opr (matchSide oid (fun p => ¬ (opr > p)) oq b.bids tr).1 ots)
          b.asks),
       (matchSide oid (fun p => ¬ (opr > p)) oq b.bids tr).2.2) := by
  simp only [process, matchOrder_sell b oid opr oq ots tr hq]
  rw [if_pos hres]
  simp only [OrderBook.add]

theorem process_sell_nores (b : OrderBook) (oid : Nat) (opr oq : Int) (ots : Nat)
    (tr : List Trade) (hq : ¬ oq ≤ 0)
    (hres : ¬ 0 < (matchSide oid (fun p => ¬ (opr > p)) oq b.bids tr).1) :
    process b (Order.mk oid Side.Sell opr oq ots) tr =
      (OrderBook.mk (matchSide oid (fun p => ¬ (opr > p)) oq b.bids tr).2.1 b.asks,
       (matchSide oid (fun p => ¬ (opr > p)) oq b.bids tr).2.2) := by
  simp only [process, matchOrder_sell b oid opr oq ots tr hq]
  rw [if_neg hres]

/-- `MatchingEngine::process` preserves the book invariant. -/
theorem process_inv (b : OrderBook) (o : Order) (tr : List Trade) (h : Inv b) :
    Inv (process b o tr).1 := by
  obtain ⟨hsb, hsa, hgb, hga, hnc⟩ := h
  obtain ⟨oid, osd, opr, oq, ots⟩ := o
  by_cases hq : oq ≤ 0
  · rw [process_eq_of_qty_nonpos b _ tr hq]
    exact ⟨hsb, hsa, hgb, hga, hnc⟩
  · cases osd with
    | Buy =>
      obtain ⟨k, hk⟩ := matchSide_keys oid (fun p => ¬ (opr < p)) b.asks oq tr
      have hsa' : sortedSide askLt
          (matchSide oid (fun p => ¬ (opr < p)) oq b.asks tr).2.1 := by
        unfold sortedSide at hsa ⊢
        rw [hk]
        exact List.Chain'.drop hsa k
      have hga' := matchSide_good oid (fun p => ¬ (opr < p)) b.asks oq tr hga
      have haskne :
          (matchSide oid (fun p => ¬ (opr < p)) oq b.asks tr).2.1 ≠ [] →
            b.asks ≠ [] := by
        intro hne hnil
        have hmn : List.map Prod.fst
            (matchSide oid (fun p => ¬ (opr < p)) oq b.asks tr).2.1 = [] := by
          rw [hk, hnil]
          simp
        exact hne (List.map_eq_nil_iff.1 hmn)
      have hba_mono : ∀ pl' : Int × PriceLevel,
          ((matchSide oid (fun p => ¬ (opr < p)) oq b.asks tr).2.1).head? = some pl' →
          ∃ pl0, b.asks.head? = some pl0 ∧ pl0.1 ≤ pl'.1 := by
        intro pl' hh
        have hkey : ((b.asks.map Prod.fst).drop k).head? = some pl'.1 := by
          rw [← hk, List.head?_map, hh]
          rfl
        obtain ⟨q0, hq0, heq⟩ := chain_drop_head (fun a b : Int => a < b)
          (fun x y z hxy hyz => lt_trans hxy hyz) (b.asks.map Prod.fst)
          (asks_chain_lt b.asks hsa) k pl'.1 hkey
        rw [List.head?_map] at hq0
        cases hback : b.asks.head? with
        | none => rw [hback] at hq0; simp at hq0
        | some pl0 =>
          rw [hback] at hq0
          simp at hq0
          refine ⟨pl0, rfl, ?_⟩
          rw [hq0]
          rcases heq with he | he
          · exact le_of_eq he
          · exact le_of_lt he
      by_cases hres : 0 < (matchSide oid (fun p => ¬ (opr < p)) oq b.asks tr).1
      · rw [process_buy_res b oid opr oq ots tr hq hres]
        dsimp only
        refine ⟨?_, hsa', ?_, hga', ?_⟩
        · exact insertLevel_sorted bidLt bidLt_total _ b.bids hsb
        · exact insertLevel_good bidLt _ hres b.bids hgb
        · intro hbne hane
          have hane' : (matchSide oid (fun p => ¬ (opr < p)) oq b.asks tr).2.1 ≠ [] := hane
          cases hasksh : ((matchSide oid (fun p => ¬ (opr < p)) oq b.asks tr).2.1).head? with
          | none => exact absurd (List.head?_eq_none_iff.1 hasksh) hane'
          | some pl' =>
            have hba' : (OrderBook.mk (insertLevel bidLt (Order.mk oid Side.Buy opr
                (matchSide oid (fun p => ¬ (opr < p)) oq b.asks tr).1 ots) b.bids)
                (matchSide oid (fun p => ¬ (opr < p)) oq b.asks tr).2.1).best_ask
                = pl'.1 :=
              best_ask_eq_head _ _ pl' hasksh
            have hlt : opr < pl'.1 := by
              rcases matchSide_exit oid (fun p => ¬ (opr < p)) b.asks oq tr hres with
                hexit | ⟨qx, hqx, hcross⟩
              · exact absurd hexit hane'
              · rw [hasksh] at hqx
                have hqx2 : pl' = qx := by injection hqx
                rw [← hqx2] at hcross
                simpa using hcross
            cases hbidsh : (insertLevel bidLt (Order.mk oid Side.Buy opr
                (matchSide oid (fun p => ¬ (opr < p)) oq b.asks tr).1 ots) b.bids).head? with
            | none =>
              exact absurd (List.head?_eq_none_iff.1 hbidsh) hbne
            | some q' =>
              have hbb' : (OrderBook.mk (insertLevel bidLt (Order.mk oid Side.Buy opr
                  (matchSide oid (fun p => ¬ (opr < p)) oq b.asks tr).1 ots) b.bids)
                  (matchSide oid (fun p => ¬ (opr < p)) oq b.asks tr).2.1).best_bid
                  = q'.1 :=
                best_bid_eq_head _ _ q' hbidsh
              rw [hbb', hba']
              rcases insertLevel_headkey bidLt _ b.bids q' hbidsh with hc | ⟨hd0, hhd0, hkeyq⟩
              · rw [hc]
                exact hlt
              · have hbne0 : b.bids ≠ [] := by
                  intro hx
                  rw [hx] at hhd0
                  simp at hhd0
                have holdnc := hnc hbne0 (haskne hane')
                have hbb0 : b.best_bid = hd0.1 := best_bid_eq_head b.bids b.asks hd0 hhd0
                obtain ⟨pl0, hpl0, hle⟩ := hba_mono pl' hasksh
                have hba0 : b.best_ask = pl0.1 := best_ask_eq_head b.bids b.asks pl0 hpl0
                rw [hbb0, hba0] at holdnc
                rw [hkeyq]
                omega
      · rw [process_buy_nores b oid opr oq ots tr hq hres]
        dsimp only
        refine ⟨hsb, hsa', hgb, hga', ?_⟩
        intro hbne hane
        have hane' : (matchSide oid (fun p => ¬ (opr < p)) oq b.asks tr).2.1 ≠ [] := hane
        cases hasksh : ((matchSide oid (fun p => ¬ (opr < p)) oq b.asks tr).2.1).head? with
        | none => exact absurd (List.head?_eq_none_iff.1 hasksh) hane'
        | some pl' =>
          have hba' : (OrderBook.mk b.bids
              (matchSide oid (fun p => ¬ (opr < p)) oq b.asks tr).2.1).best_ask
              = pl'.1 :=
            best_ask_eq_head _ _ pl' hasksh
          cases hbidsh : b.bids.head? with
          | none =>
            exact absurd (List.head?_eq_none_iff.1 hbidsh) hbne
          | some q' =>
            have hbb' : (OrderBook.mk b.bids
                (matchSide oid (fun p => ¬ (opr < p)) oq b.asks tr).2.1).best_bid
                = q'.1 :=
              best_bid_eq_head _ _ q' hbidsh
            rw [hbb', hba']
            have hbne0 : b.bids ≠ [] := by
              intro hx
              rw [hx] at hbidsh
              simp at hbidsh
            have holdnc := hnc hbne0 (haskne hane')
            have hbb0 : b.best_bid = q'.1 := best_bid_eq_head b.bids b.asks q' hbidsh
            obtain ⟨pl0, hpl0, hle⟩ := hba_mono pl' hasksh
            have hba0 : b.best_ask = pl0.1 := best_ask_eq_head b.bids b.asks pl0 hpl0
            rw [hbb0, hba0] at holdnc
            omega
    | Sell =>
      obtain ⟨k, hk⟩ := matchSide_keys oid (fun p => ¬ (opr > p)) b.bids oq tr
      have hsb' : sortedSide bidLt
          (matchSide oid (fun p => ¬ (opr > p)) oq b.bids tr).2.1 := by
        unfold sortedSide at hsb ⊢
        rw [hk]
        exact List.Chain'.drop hsb k
      have hgb' := matchSide_good oid (fun p => ¬ (opr > p)) b.bids oq tr hgb
      have hbidne :
          (matchSide oid (fun p => ¬ (opr > p)) oq b.bids tr).2.1 ≠ [] →
            b.bids ≠ [] := by
        intro hne hnil
        have hmn : List.map Prod.fst
            (matchSide oid (fun p => ¬ (opr > p)) oq b.bids tr).2.1 = [] := by
          rw [hk, hnil]
          simp
        exact hne (List.map_eq_nil_iff.1 hmn)
      have hbb_mono : ∀ pl' : Int × PriceLevel,
          ((matchSide oid (fun p => ¬ (opr > p)) oq b.bids tr).2.1).head? = some pl' →
          ∃ pl0, b.bids.head? = some pl0 ∧ pl'.1 ≤ pl0.1 := by
        intro pl' hh
        have hkey : ((b.bids.map Prod.fst).drop k).head? = some pl'.1 := by
          rw [← hk, List.head?_map, hh]
          rfl
        obtain ⟨q0, hq0, heq⟩ := chain_drop_head (fun a b : Int => b < a)
          (fun x y z hxy hyz => lt_trans hyz hxy) (b.bids.map Prod.fst)
          (bids_chain_gt b.bids hsb) k pl'.1 hkey
        rw [List.head?_map] at hq0
        cases hback : b.bids.head? with
        | none => rw [hback] at hq0; simp at hq0
        | some pl0 =>
          rw [hback] at hq0
          simp at hq0
          refine ⟨pl0, rfl, ?_⟩
          rw [hq0]
          rcases heq with he | he
          · exact le_of_eq he.symm
          · exact le_of_lt he
      by_cases hres : 0 < (matchSide oid (fun p => ¬ (opr > p)) oq b.bids tr).1
      · rw [process_sell_res b oid opr oq ots tr hq hres]
        dsimp only
        refine ⟨hsb', ?_, hgb', ?_, ?_⟩
        · exact insertLevel_sorted askLt askLt_total _ b.asks hsa
        · exact insertLevel_good askLt _ hres b.asks hga
        · intro hbne hane
          have hbne' : (matchSide oid (fun p => ¬ (opr > p)) oq b.bids tr).2.1 ≠ [] := hbne
          cases hbidsh : ((matchSide oid (fun p => ¬ (opr > p)) oq b.bids tr).2.1).head? with
          | none => exact absurd (List.head?_eq_none_iff.1 hbidsh) hbne'
          | some pl' =>
            have hbb' : (OrderBook.mk
                (matchSide oid (fun p => ¬ (opr > p)) oq b.bids tr).2.1
                (insertLevel askLt (Order.mk oid Side.Sell opr
                  (matchSide oid (fun p => ¬ (opr > p)) oq b.bids tr).1 ots) b.asks)).best_bid
                = pl'.1 :=
              best_bid_eq_head _ _ pl' hbidsh
            have hlt : pl'.1 < opr := by
              rcases matchSide_exit oid (fun p => ¬ (opr > p)) b.bids oq tr hres with
                hexit | ⟨qx, hqx, hcross⟩
              · exact absurd hexit hbne'
              · rw [hbidsh] at hqx
                have hqx2 : pl' = qx := by injection hqx
                rw [← hqx2] at hcross
                simpa using hcross
            cases hasksh : (insertLevel askLt (Order.mk oid Side.Sell opr
                (matchSide oid (fun p => ¬ (opr > p)) oq b.bids tr).1 ots) b.asks).head? with
            | none =>
              exact absurd (List.head?_eq_none_iff.1 hasksh) hane
            | some q' =>
              have hba' : (OrderBook.mk
                  (matchSide oid (fun p => ¬ (opr > p)) oq b.bids tr).2.1
                  (insertLevel askLt (Order.mk oid Side.Sell opr
                    (matchSide oid (fun p => ¬ (opr > p)) oq b.bids tr).1 ots) b.asks)).best_ask
                  = q'.1 :=
                best_ask_eq_head _ _ q' hasksh
              rw [hbb', hba']
              rcases insertLevel_headkey askLt _ b.asks q' hasksh with hc | ⟨hd0, hhd0, hkeyq⟩
              · rw [hc]
                exact hlt
              · have hane0 : b.asks ≠ [] := by
                  intro hx
                  rw [hx] at hhd0
                  simp at hhd0
                have holdnc := hnc (hbidne hbne') hane0
                have hba0 : b.best_ask = hd0.1 := best_ask_eq_head b.bids b.asks hd0 hhd0
                obtain ⟨pl0, hpl0, hle⟩ := hbb_mono pl' hbidsh
                have hbb0 : b.best_bid = pl0.1 := best_bid_eq_head b.bids b.asks pl0 hpl0
                rw [hbb0, hba0] at holdnc
                rw [hkeyq]
                omega
      · rw [process_sell_nores b oid opr oq ots tr hq hres]
        dsimp only
        refine ⟨hsb', hsa, hgb', hga, ?_⟩
        intro hbne hane
        have hbne' : (matchSide oid (fun p => ¬ (opr > p)) oq b.bids tr).2.1 ≠ [] := hbne
        cases hbidsh : ((matchSide oid (fun p => ¬ (opr > p)) oq b.bids tr).2.1).head? with
        | none => exact absurd (List.head?_eq_none_iff.1 hbidsh) hbne'
        | some pl' =>
          have hbb' : (OrderBook.mk
              (matchSide oid (fun p => ¬ (opr > p)) oq b.bids tr).2.1 b.asks).best_bid
              = pl'.1 :=
            best_bid_eq_head _ _ pl' hbidsh
          cases hasksh : b.asks.head? with
          | none =>
            exact absurd (List.head?_eq_none_iff.1 hasksh) hane
          | some q' =>
            have hba' : (OrderBook.mk
                (matchSide oid (fun p => ¬ (opr > p)) oq b.bids tr).2.1 b.asks).best_ask
                = q'.1 :=
              best_ask_eq_head _ _ q' hasksh
            rw [hbb', hba']
            have hane0 : b.asks ≠ [] := by
              intro hx
              rw [hx] at hasksh
              simp at hasksh
            have holdnc := hnc (hbidne hbne') hane0
            have hba0 : b.best_ask = q'.1 := best_ask_eq_head b.bids b.asks q' hasksh
            obtain ⟨pl0, hpl0, hle⟩ := hbb_mono pl' hbidsh
            have hbb0 : b.best_bid = pl0.1 := best_bid_eq_head b.bids b.asks pl0 hpl0
            rw [hbb0, hba0] at holdnc
            omega

theorem inv_empty : Inv emptyBook := by decide

theorem foldl_process_inv (os : List Order) :
    ∀ s : OrderBook × List Trade, Inv s.1 →
      Inv ((os.foldl (fun s o => process s.1 o s.2) s).1) := by
  induction os with
  | nil => intro s h; simpa using h
  | cons o rest ih =>
    intro s h
    rw [List.foldl_cons]
    exact ih _ (process_inv s.1 o s.2 h)

/-- Every book reachable from the empty book by submits satisfies the full
invariant. -/
theorem runBook_inv (os : List Order) : Inv (runBook os) :=
  foldl_process_inv os (emptyBook, []) inv_empty

/-- Claim C2: starting from the empty book, after every submit
(`MatchingEngine::process` of one order), whenever both the bid side and the
ask side are non-empty, `best_bid()` is strictly less than `best_ask()`: the
book is never crossed at rest. -/
theorem no_cross_at_rest (os : List Order) (h1 : (runBook os).bids ≠ [])
    (h2 : (runBook os).asks ≠ []) :
    (runBook os).best_bid < (runBook os).best_ask :=
  (runBook_inv os).2.2.2.2 h1 h2

/-- Witness for C2 (spec scenario S4). -/
theorem no_cross_at_rest_witness :
    (runBook [Order.mk 1 Side.Sell 101 5 0, Order.mk 2 Side.Buy 100 5 0]).best_bid <
      (runBook [Order.mk 1 Side.Sell 101 5 0, Order.mk 2 Side.Buy 100 5 0]).best_ask :=
  no_cross_at_rest [Order.mk 1 Side.Sell 101 5 0, Order.mk 2 Side.Buy 100 5 0]
    (by decide) (by decide)

/-- Claim C5: after every engine operation (any sequence of submits from the
empty book), every existing price level on either side has
`total_qty` equal to the sum of the quantities of the orders in its FIFO, and
`total_qty > 0` (no empty level and no zero-quantity resting order persists). -/
theorem level_totals (os : List Order) (pl : Int × PriceLevel)
    (hmem : pl ∈ (runBook os).bids ∨ pl ∈ (runBook os).asks) :
    pl.2.total_qty = (pl.2.orders.map Order.qty).sum ∧ 0 < pl.2.total_qty := by
  obtain ⟨_, _, hgb, hga, _⟩ := runBook_inv os
  have hgood : goodLevel pl.1 pl.2 := by
    rcases hmem with hm | hm
    · exact hgb pl hm
    · exact hga pl hm
  obtain ⟨hne, hsum, hq⟩ := hgood
  refine ⟨hsum, ?_⟩
  rw [hsum]
  apply List.sum_pos
  · intro x hx
    rcases List.mem_map.1 hx with ⟨o, ho, hxo⟩
    rw [← hxo]
    exact (hq o ho).1
  · intro hmapnil
    exact hne (List.map_eq_nil_iff.1 hmapnil)

/-- Witness for C5. -/
theorem level_totals_witness :
    ((100 : Int), PriceLevel.mk [Order.mk 1 Side.Sell 100 10 0] 10).2.total_qty
      = ((((100 : Int), PriceLevel.mk [Order.mk 1 Side.Sell 100 10 0] 10).2.orders.map
          Order.qty).sum) ∧
    0 < ((100 : Int), PriceLevel.mk [Order.mk 1 Side.Sell 100 10 0] 10).2.total_qty :=
  level_totals [Order.mk 1 Side.Sell 100 10 0]
    ((100 : Int), PriceLevel.mk [Order.mk 1 Side.Sell 100 10 0] 10) (by decide)

/-! ### Where emitted trades come from -/

theorem matchLevel_trades (tid : Nat) (p : Int) (orders : List Order) :
    ∀ (tq : Int) (acc : List Trade),
      (∀ o ∈ orders, 0 < o.qty) →
      ∀ t ∈ (matchLevel tid p tq orders acc).2.2, t ∈ acc ∨
        (t.taker_id = tid ∧ t.price = p ∧ 0 < t.qty ∧
         ∃ m ∈ orders, m.id = t.maker_id ∧ t.qty ≤ m.qty) := by
  induction orders with
  | nil => intro tq acc _ t ht; left; simpa [matchLevel] using ht
  | cons maker rest ih =>
    intro tq acc hpos t ht
    by_cases h1 : tq ≤ 0
    · left
      rw [matchLevel] at ht
      simpa [h1] using ht
    · by_cases h2 : maker.qty - min tq maker.qty = 0
      · rw [matchLevel] at ht
        simp only [if_neg h1, if_pos h2] at ht
        have hrec := ih (tq - min tq maker.qty)
          (acc ++ [Trade.mk tid maker.id p (min tq maker.qty)])
          (fun o ho => hpos o (List.mem_cons_of_mem _ ho)) t ht
        rcases hrec with hin | ⟨ha, hb, hc, m, hm, hd, he⟩
        · rcases List.mem_append.1 hin with hx | hx
          · left; exact hx
          · right
            simp at hx
            rw [hx]
            exact ⟨rfl, rfl,
              lt_min (by omega) (hpos maker (List.mem_cons_self maker rest)),
              maker, List.mem_cons_self maker rest, rfl, min_le_right tq maker.qty⟩
        · right
          exact ⟨ha, hb, hc, m, List.mem_cons_of_mem _ hm, hd, he⟩
      · rw [matchLevel] at ht
        simp only [if_neg h1, if_neg h2] at ht
        rcases List.mem_append.1 ht with hx | hx
        · left; exact hx
        · right
          simp at hx
          rw [hx]
          exact ⟨rfl, rfl,
            lt_min (by omega) (hpos maker (List.mem_cons_self maker rest)),
            maker, List.mem_cons_self maker rest, rfl, min_le_right tq maker.qty⟩

theorem matchSide_trades (tid : Nat) (cross : Int → Bool) (lvls : BookSide) :
    ∀ (tq : Int) (acc : List Trade),
      (∀ pl ∈ lvls, ∀ o ∈ pl.2.orders, 0 < o.qty) →
      ∀ t ∈ (matchSide tid cross tq lvls acc).2.2, t ∈ acc ∨
        (t.taker_id = tid ∧ 0 < t.qty ∧
         ∃ pl ∈ lvls, cross pl.1 = true ∧ t.price = pl.1 ∧
           ∃ m ∈ pl.2.orders, m.id = t.maker_id ∧ t.qty ≤ m.qty) := by
  induction lvls with
  | nil => intro tq acc _ t ht; left; simpa [matchSide] using ht
  | cons pl0 rest ih =>
    obtain ⟨p, l⟩ := pl0
    intro tq acc hg t ht
    by_cases h1 : tq ≤ 0
    · left
      rw [matchSide] at ht
      simpa [h1] using ht
    · by_cases h2 : cross p
      · by_cases h3 : (matchLevel tid p tq l.orders acc).2.1 = []
        · rw [matchSide] at ht
          simp only [if_neg h1, h2, not_true_eq_false, if_false] at ht
          simp only [h3, if_pos trivial] at ht
          have hrec := ih (matchLevel tid p tq l.orders acc).1
            (matchLevel tid p tq l.orders acc).2.2
            (fun x hx o ho => hg x (List.mem_cons_of_mem _ hx) o ho) t ht
          rcases hrec with hin | ⟨ha, hb, pl2, hpl2, hcr, hpr, m, hm, hid, hle⟩
          · have hlv := matchLevel_trades tid p l.orders tq acc
              (fun o ho => hg (p, l) (List.mem_cons_self _ _) o ho) t hin
            rcases hlv with hin2 | ⟨ha, hb, hc, m, hm, hd, he⟩
            · left; exact hin2
            · right
              exact ⟨ha, hc, (p, l), List.mem_cons_self _ _, h2, hb, m, hm, hd, he⟩
          · right
            exact ⟨ha, hb, pl2, List.mem_cons_of_mem _ hpl2, hcr, hpr, m, hm, hid, hle⟩
        · rw [matchSide] at ht
          simp only [if_neg h1, h2, not_true_eq_false, if_false] at ht
          simp only [if_neg h3] at ht
          have hlv := matchLevel_trades tid p l.orders tq acc
            (fun o ho => hg (p, l) (List.mem_cons_self _ _) o ho) t ht
          rcases hlv with hin2 | ⟨ha, hb, hc, m, hm, hd, he⟩
          · left; exact hin2
          · right
            exact ⟨ha, hc, (p, l), List.mem_cons_self _ _, h2, hb, m, hm, hd, he⟩
      · left
        rw [matchSide] at ht
        simpa [h1, h2] using ht

/-- Claim C4: every trade emitted by `match` carries the maker's resting level
price, which equals the maker's own price, and that price lies between the
taker's limit price and the maker's price inclusive (Buy taker:
`maker.price ≤ trade.price ≤ taker.price`; symmetrically for a Sell taker);
the taker's price enters only through the crossability test. -/
theorem exec_price (b : OrderBook) (inc : Order) (t : Trade) (hinv : Inv b)
    (ht : t ∈ (b.matchOrder inc []).2.2) :
    ∃ pl m, ((inc.side = Side.Buy ∧ pl ∈ b.asks) ∨ (inc.side = Side.Sell ∧ pl ∈ b.bids)) ∧
      m ∈ pl.2.orders ∧ m.id = t.maker_id ∧ t.price = pl.1 ∧ t.price = m.price ∧
      (inc.side = Side.Buy → m.price ≤ t.price ∧ t.price ≤ inc.price) ∧
      (inc.side = Side.Sell → inc.price ≤ t.price ∧ t.price ≤ m.price) := by
  obtain ⟨hsb, hsa, hgb, hga, hnc⟩ := hinv
  obtain ⟨iid, isd, ipr, iq, its⟩ := inc
  by_cases hq : iq ≤ 0
  · have he : OrderBook.matchOrder b (Order.mk iid isd ipr iq its) [] =
        (b, Order.mk iid isd ipr iq its, []) := by
      simp [OrderBook.matchOrder, hq]
    rw [he] at ht
    exact absurd ht (List.not_mem_nil t)
  · cases isd with
    | Buy =>
      rw [matchOrder_buy b iid ipr iq its [] hq] at ht
      dsimp only at ht
      have hsr := matchSide_trades iid (fun p => ¬ (ipr < p)) b.asks iq []
        (fun x hx o ho => ((hga x hx).2.2 o ho).1) t ht
      rcases hsr with hin | ⟨ha, hposq, pl, hpl, hcr, hpr, m, hm, hid, hle⟩
      · exact absurd hin (List.not_mem_nil t)
      · have hmp : m.price = pl.1 := ((hga pl hpl).2.2 m hm).2
        have hcr2 : ¬ (ipr < pl.1) := by simpa using hcr
        refine ⟨pl, m, Or.inl ⟨rfl, hpl⟩, hm, hid, hpr, by rw [hpr, hmp], ?_, ?_⟩
        · intro _
          constructor
          · rw [hpr, hmp]
          · rw [hpr]
            show pl.1 ≤ ipr
            omega
        · intro hcon
          exact Side.noConfusion hcon
    | Sell =>
      rw [matchOrder_sell b iid ipr iq its [] hq] at ht
      dsimp only at ht
      have hsr := matchSide_trades iid (fun p => ¬ (ipr > p)) b.bids iq []
        (fun x hx o ho => ((hgb x hx).2.2 o ho).1) t ht
      rcases hsr with hin | ⟨ha, hposq, pl, hpl, hcr, hpr, m, hm, hid, hle⟩
      · exact absurd hin (List.not_mem_nil t)
      · have hmp : m.price = pl.1 := ((hgb pl hpl).2.2 m hm).2
        have hcr2 : ¬ (ipr > pl.1) := by simpa using hcr
        refine ⟨pl, m, Or.inr ⟨rfl, hpl⟩, hm, hid, hpr, by rw [hpr, hmp], ?_, ?_⟩
        · intro hcon
          exact Side.noConfusion hcon
        · intro _
          constructor
          · rw [hpr]
            show ipr ≤ pl.1
            omega
          · rw [hpr, hmp]

/-- Witness for C4 (spec scenario S1). -/
theorem exec_price_witness :
    ∃ pl m,
      (((Order.mk 2 Side.Buy 100 4 1).side = Side.Buy ∧
          pl ∈ (OrderBook.mk []
            [(100, PriceLevel.mk [Order.mk 1 Side.Sell 100 10 0] 10)]).asks) ∨
        ((Order.mk 2 Side.Buy 100 4 1).side = Side.Sell ∧
          pl ∈ (OrderBook.mk []
            [(100, PriceLevel.mk [Order.mk 1 Side.Sell 100 10 0] 10)]).bids)) ∧
      m ∈ pl.2.orders ∧ m.id = (Trade.mk 2 1 100 4).maker_id ∧
      (Trade.mk 2 1 100 4).price = pl.1 ∧ (Trade.mk 2 1 100 4).price = m.price ∧
      ((Order.mk 2 Side.Buy 100 4 1).side = Side.Buy →
        m.price ≤ (Trade.mk 2 1 100 4).price ∧
        (Trade.mk 2 1 100 4).price ≤ (Order.mk 2 Side.Buy 100 4 1).price) ∧
      ((Order.mk 2 Side.Buy 100 4 1).side = Side.Sell →
        (Order.mk 2 Side.Buy 100 4 1).price ≤ (Trade.mk 2 1 100 4).price ∧
        (Trade.mk 2 1 100 4).price ≤ m.price) :=
  exec_price (OrderBook.mk [] [(100, PriceLevel.mk [Order.mk 1 Side.Sell 100 10 0] 10)])
    (Order.mk 2 Side.Buy 100 4 1) (Trade.mk 2 1 100 4) (by decide) (by decide)

/-! ### Sensitivity to the ts_ns tag -/

/-- Normalise an order's diagnostic `ts_ns` tag (the only field the matching
logic never reads). -/
def stripOrder (o : Order) : Order := Order.mk o.id o.side o.price o.qty 0

/-- Normalise the `ts_ns` tags of a level's resting orders. -/
def stripLevel (l : PriceLevel) : PriceLevel :=
  PriceLevel.mk (l.orders.map stripOrder) l.total_qty

/-- Normalise the `ts_ns` tags of a side. -/
def stripSide (s : BookSide) : BookSide := s.map (fun pl => (pl.1, stripLevel pl.2))

/-- Normalise the `ts_ns` tags of the whole book. -/
def stripBook (b : OrderBook) : OrderBook :=
  OrderBook.mk (stripSide b.bids) (stripSide b.asks)

theorem stripSide_insertLevel (lt : Int → Int → Bool) (o : Order) :
    ∀ s : BookSide, stripSide (insertLevel lt o s) =
      insertLevel lt (stripOrder o) (stripSide s) := by
  intro s
  induction s with
  | nil => simp [insertLevel, stripSide, stripLevel, stripOrder]
  | cons hd rest ih =>
    obtain ⟨p, l⟩ := hd
    simp only [stripSide, stripLevel, stripOrder, List.map_cons] at ih ⊢
    by_cases h1 : lt o.price p
    · simp [insertLevel, h1, stripOrder]
    · by_cases h2 : o.price = p
      · subst h2
        simp [insertLevel, h1, stripOrder]
      · simp [insertLevel, h1, h2, ih]

theorem matchLevel_strip (tid : Nat) (p : Int) (orders : List Order) :
    ∀ (tq : Int) (acc : List Trade),
      matchLevel tid p tq (orders.map stripOrder) acc =
        ((matchLevel tid p tq orders acc).1,
         (matchLevel tid p tq orders acc).2.1.map stripOrder,
         (matchLevel tid p tq orders acc).2.2) := by
  induction orders with
  | nil => intro tq acc; simp [matchLevel]
  | cons maker rest ih =>
    intro tq acc
    by_cases h1 : tq ≤ 0
    · simp [matchLevel, h1]
    · by_cases h2 : maker.qty - min tq maker.qty = 0
      · simp only [List.map_cons]
        rw [matchLevel, matchLevel]
        simp only [stripOrder, if_neg h1, if_pos h2]
        exact ih (tq - min tq maker.qty) (acc ++ [Trade.mk tid maker.id p (min tq maker.qty)])
      · simp only [List.map_cons]
        rw [matchLevel, matchLevel]
        simp only [stripOrder, if_neg h1, if_neg h2]
        simp [stripOrder]

theorem matchSide_strip (tid : Nat) (cross : Int → Bool) (lvls : BookSide) :
    ∀ (tq : Int) (acc : List Trade),
      matchSide tid cross tq (stripSide lvls) acc =
        ((matchSide tid cross tq lvls acc).1,
         stripSide (matchSide tid cross tq lvls acc).2.1,
         (matchSide tid cross tq lvls acc).2.2) := by
  induction lvls with
  | nil => intro tq acc; simp [matchSide, stripSide]
  | cons pl rest ih =>
    obtain ⟨p, l⟩ := pl
    intro tq acc
    have hcons : stripSide ((p, l) :: rest) = (p, stripLevel l) :: stripSide rest := rfl
    by_cases h1 : tq ≤ 0
    · rw [hcons, matchSide, matchSide]
      simp [h1, hcons, stripSide]
    · by_cases h2 : cross p
      · have hordr : (stripLevel l).orders = l.orders.map stripOrder := rfl
        by_cases h3 : (matchLevel tid p tq l.orders acc).2.1 = []
        · rw [hcons, matchSide, matchSide]
          simp only [if_neg h1, h2, not_true_eq_false, if_false, hordr]
          rw [matchLevel_strip tid p l.orders tq acc]
          simp only [h3, List.map_nil, if_pos trivial]
          exact ih (matchLevel tid p tq l.orders acc).1 (matchLevel tid p tq l.orders acc).2.2
        · rw [hcons, matchSide, matchSide]
          simp only [if_neg h1, h2, not_true_eq_false, if_false, hordr]
          rw [matchLevel_strip tid p l.orders tq acc]
          have hmapne : (matchLevel tid p tq l.orders acc).2.1.map stripOrder ≠ [] := by
            intro hx
            exact h3 (List.map_eq_nil_iff.1 hx)
          simp only [if_neg h3, if_neg hmapne]
          simp [stripSide, stripLevel]
      · rw [hcons, matchSide, matchSide]
        simp [h1, h2, stripSide, stripLevel]

theorem add_strip (b : OrderBook) (o : Order) :
    (stripBook b).add (stripOrder o) = stripBook (b.add o) := by
  obtain ⟨oid, osd, opr, oq, ots⟩ := o
  cases osd with
  | Buy => simp [OrderBook.add, stripBook, stripOrder, stripSide_insertLevel]
  | Sell => simp [OrderBook.add, stripBook, stripOrder, stripSide_insertLevel]

theorem matchOrder_strip (b : OrderBook) (inc : Order) (tr : List Trade) :
    (stripBook b).matchOrder (stripOrder inc) tr =
      (stripBook (b.matchOrder inc tr).1, stripOrder (b.matchOrder inc tr).2.1,
       (b.matchOrder inc tr).2.2) := by
  obtain ⟨iid, isd, ipr, iq, its⟩ := inc
  by_cases hq : iq ≤ 0
  · simp [OrderBook.matchOrder, stripOrder, hq]
  · cases isd with
    | Buy =>
      rw [matchOrder_buy b iid ipr iq its tr hq]
      have hso : stripOrder (Order.mk iid Side.Buy ipr iq its) =
          Order.mk iid Side.Buy ipr iq 0 := rfl
      rw [hso, matchOrder_buy (stripBook b) iid ipr iq 0 tr hq]
      have hab : (stripBook b).asks = stripSide b.asks := rfl
      rw [hab, matchSide_strip]
      rfl
    | Sell =>
      rw [matchOrder_sell b iid ipr iq its tr hq]
      have hso : stripOrder (Order.mk iid Side.Sell ipr iq its) =
          Order.mk iid Side.Sell ipr iq 0 := rfl
      rw [hso, matchOrder_sell (stripBook b) iid ipr iq 0 tr hq]
      have hbb : (stripBook b).bids = stripSide b.bids := rfl
      rw [hbb, matchSide_strip]
      rfl

theorem process_strip (b : OrderBook) (o : Order) (tr : List Trade) :
    process (stripBook b) (stripOrder o) tr =
      (stripBook (process b o tr).1, (process b o tr).2) := by
  simp only [process, matchOrder_strip]
  by_cases hres : 0 < (b.matchOrder o tr).2.1.qty
  · rw [if_pos, if_pos hres, add_strip]
    exact hres
  · rw [if_neg, if_neg hres]
    exact hres

theorem runEngine_strip (os : List Order) :
    ∀ s : OrderBook × List Trade,
      (os.map stripOrder).foldl (fun s o => process s.1 o s.2) (stripBook s.1, s.2) =
        (stripBook ((os.foldl (fun s o => process s.1 o s.2) s).1),
         (os.foldl (fun s o => process s.1 o s.2) s).2) := by
  induction os with
  | nil => intro s; simp
  | cons o rest ih =>
    intro s
    simp only [List.map_cons, List.foldl_cons]
    rw [process_strip]
    exact ih (process s.1 o s.2)

/-- Counterexample for C8: two single-order runs whose orders agree on `id`,
`side`, `price` and `qty` but differ in `ts_ns` yield equal trade sequences
but different final book states, because the resting order stores its
`ts_ns` tag in the book. -/
theorem determinism_ts_counterexample :
    ((Order.mk 1 Side.Sell 100 5 0).id = (Order.mk 1 Side.Sell 100 5 1).id ∧
     (Order.mk 1 Side.Sell 100 5 0).side = (Order.mk 1 Side.Sell 100 5 1).side ∧
     (Order.mk 1 Side.Sell 100 5 0).price = (Order.mk 1 Side.Sell 100 5 1).price ∧
     (Order.mk 1 Side.Sell 100 5 0).qty = (Order.mk 1 Side.Sell 100 5 1).qty) ∧
    (runEngine [Order.mk 1 Side.Sell 100 5 0]).2 =
      (runEngine [Order.mk 1 Side.Sell 100 5 1]).2 ∧
    (runEngine [Order.mk 1 Side.Sell 100 5 0]).1 ≠
      (runEngine [Order.mk 1 Side.Sell 100 5 1]).1 := by
  decide

/-- Claim C8 as amended: the engine is deterministic and blind to `ts_ns`
except for storing it: two runs whose order sequences agree on the `id`,
`side`, `price` and `qty` fields produce identical trade sequences, and final
book states identical up to the stored `ts_ns` tags of resting orders. -/
theorem determinism_up_to_ts (os1 os2 : List Order)
    (h : os1.map stripOrder = os2.map stripOrder) :
    (runEngine os1).2 = (runEngine os2).2 ∧
      stripBook (runEngine os1).1 = stripBook (runEngine os2).1 := by
  have e1 : runEngine (os1.map stripOrder) =
      (stripBook (runEngine os1).1, (runEngine os1).2) :=
    runEngine_strip os1 (emptyBook, [])
  have e2 : runEngine (os2.map stripOrder) =
      (stripBook (runEngine os2).1, (runEngine os2).2) :=
    runEngine_strip os2 (emptyBook, [])
  have key : runEngine (os1.map stripOrder) = runEngine (os2.map stripOrder) := by rw [h]
  rw [e1, e2] at key
  have k2 := congrArg Prod.snd key
  have k1 := congrArg Prod.fst key
  exact ⟨k2, k1⟩

/-- Witness for C8 (amended form). -/
theorem determinism_up_to_ts_witness :
    (runEngine [Order.mk 1 Side.Sell 100 5 0]).2 =
      (runEngine [Order.mk 1 Side.Sell 100 5 7]).2 ∧
      stripBook (runEngine [Order.mk 1 Side.Sell 100 5 0]).1 =
        stripBook (runEngine [Order.mk 1 Side.Sell 100 5 7]).1 :=
  determinism_up_to_ts [Order.mk 1 Side.Sell 100 5 0] [Order.mk 1 Side.Sell 100 5 7]
    (by decide)

/-! ### Input validation behaviour of submit -/

/-- Counterexample for C6: an order with non-positive price (qty positive) is
not rejected: submitted to the empty book it is accepted and left resting,
and `process` offers no rejection signal of any kind. -/
theorem submit_rejects_counterexample :
    (Order.mk 7 Side.Buy (-1) 5 0).price ≤ 0 ∧
    process emptyBook (Order.mk 7 Side.Buy (-1) 5 0) [] =
      (OrderBook.mk [((-1 : Int), PriceLevel.mk [Order.mk 7 Side.Buy (-1) 5 0] 5)] [], []) := by
  decide

/-- Claim C6 as amended: `process` performs no input validation and has no
rejection channel.  An order with non-positive quantity is silently dropped
(book unchanged, no trades); an order with positive quantity is processed
normally regardless of a non-positive price (on an empty book it simply
rests), and regardless of reusing the id of an order already resting (both
orders rest). -/
theorem submit_no_validation :
    (∀ (b : OrderBook) (o : Order) (tr : List Trade), o.qty ≤ 0 →
      process b o tr = (b, tr)) ∧
    (∀ o : Order, 0 < o.qty → o.price ≤ 0 → o.side = Side.Buy →
      process emptyBook o [] =
        (OrderBook.mk [(o.price, PriceLevel.mk [o] o.qty)] [], [])) ∧
    (∀ o o2 : Order, o.id = o2.id → 0 < o.qty → 0 < o2.qty →
      o.side = Side.Buy → o2.side = Side.Buy → o2.price = o.price →
      runBook [o, o2] =
        OrderBook.mk [(o.price, PriceLevel.mk [o, o2] (o.qty + o2.qty))] []) := by
  refine ⟨fun b o tr hq => process_eq_of_qty_nonpos b o tr hq, ?_, ?_⟩
  · intro o hq hpr hsd
    obtain ⟨oid, osd, opr, oq, ots⟩ := o
    have hsd2 : osd = Side.Buy := hsd
    subst hsd2
    have hq2 : 0 < oq := hq
    rw [process_buy_res emptyBook oid opr oq ots [] (by omega) (by exact hq2)]
    rfl
  · intro o o2 hid hq hq2 hsd hsd2 hpr
    obtain ⟨oid, osd, opr, oq, ots⟩ := o
    obtain ⟨oid2, osd2, opr2, oq2, ots2⟩ := o2
    have hsdb : osd = Side.Buy := hsd
    have hsdb2 : osd2 = Side.Buy := hsd2
    subst hsdb
    subst hsdb2
    have hprb : opr = opr2 := hpr.symm
    subst hprb
    have hqb : 0 < oq := hq
    have hqb2 : 0 < oq2 := hq2
    have e1 : process emptyBook (Order.mk oid Side.Buy opr oq ots) [] =
        (OrderBook.mk [(opr, PriceLevel.mk [Order.mk oid Side.Buy opr oq ots] oq)] [], []) := by
      rw [process_buy_res emptyBook oid opr oq ots [] (by omega) (by exact hqb)]
      rfl
    have hbfalse : bidLt opr opr = false := by simp [bidLt]
    have e2 : process
        (OrderBook.mk [(opr, PriceLevel.mk [Order.mk oid Side.Buy opr oq ots] oq)] [])
        (Order.mk oid2 Side.Buy opr oq2 ots2) [] =
        (OrderBook.mk [(opr, PriceLevel.mk
          [Order.mk oid Side.Buy opr oq ots, Order.mk oid2 Side.Buy opr oq2 ots2]
          (oq + oq2))] [], []) := by
      rw [process_buy_res _ oid2 opr oq2 ots2 [] (by omega) (by exact hqb2)]
      simp [insertLevel, hbfalse, matchSide]
    have hrb : runBook [Order.mk oid Side.Buy opr oq ots, Order.mk oid2 Side.Buy opr oq2 ots2] =
        (process (process emptyBook (Order.mk oid Side.Buy opr oq ots) []).1
          (Order.mk oid2 Side.Buy opr oq2 ots2)
          (process emptyBook (Order.mk oid Side.Buy opr oq ots) []).2).1 := rfl
    rw [hrb, e1]
    dsimp only
    rw [e2]

/-- Witness for C6 (amended form). -/
theorem submit_no_validation_witness :
    process emptyBook (Order.mk 3 Side.Sell 50 0 0) [] = (emptyBook, []) ∧
    process emptyBook (Order.mk 7 Side.Buy (-1) 5 0) [] =
      (OrderBook.mk [((Order.mk 7 Side.Buy (-1) 5 0).price,
        PriceLevel.mk [Order.mk 7 Side.Buy (-1) 5 0] 5)] [], []) ∧
    runBook [Order.mk 9 Side.Buy 10 2 0, Order.mk 9 Side.Buy 10 3 1] =
      OrderBook.mk [((10 : Int), PriceLevel.mk
        [Order.mk 9 Side.Buy 10 2 0, Order.mk 9 Side.Buy 10 3 1] (2 + 3))] [] :=
  ⟨submit_no_validation.1 emptyBook (Order.mk 3 Side.Sell 50 0 0) [] (by decide),
   submit_no_validation.2.1 (Order.mk 7 Side.Buy (-1) 5 0) (by decide) (by decide) (by decide),
   submit_no_validation.2.2 (Order.mk 9 Side.Buy 10 2 0) (Order.mk 9 Side.Buy 10 3 1)
     (by decide) (by decide) (by decide) (by decide) (by decide) (by decide)⟩

/-! ### Cancellation (modelled from the spec) -/

/-- Modelled from the spec: `cancel(id)` is described in spec section 4.4 but no
cancel operation or id index exists anywhere in src/ (the book exposes only
`add`, `match`, `best_bid`, `best_ask`, `dump`).  Following the spec's words:
locate the resting order, detach it from its level's FIFO, decrease the
level's `total_qty` by the remaining qty, erase the level if it became empty.
This helper does so on one side, returning `none` when the id is not resting
there. -/
def cancelInLevels (i : Nat) : BookSide → Option BookSide
  | [] => none
  | (p, l) :: rest =>
    match l.orders.find? (fun o => o.id == i) with
    | some o =>
      if l.orders.eraseP (fun x => x.id == i) = [] then some rest
      else some ((p, PriceLevel.mk (l.orders.eraseP (fun x => x.id == i))
        (l.total_qty - o.qty)) :: rest)
    | none =>
      match cancelInLevels i rest with
      | some rest2 => some ((p, l) :: rest2)
      | none => none

/-- Modelled from the spec: `cancel(id)` — look the id up on both sides, detach
and return success, or return the not-found outcome leaving the book
untouched. -/
def OrderBook.cancel (b : OrderBook) (i : Nat) : OrderBook × Bool :=
  match cancelInLevels i b.bids with
  | some bids2 => (OrderBook.mk bids2 b.asks, true)
  | none =>
    match cancelInLevels i b.asks with
    | some asks2 => (OrderBook.mk b.bids asks2, true)
    | none => (b, false)

/-- The ids resting on one side of the book. -/
def sideIds (s : BookSide) : List Nat := s.flatMap (fun pl => pl.2.orders.map Order.id)

/-- The id `i` has an order resting in the book. -/
def resting (b : OrderBook) (i : Nat) : Prop :=
  i ∈ sideIds b.bids ∨ i ∈ sideIds b.asks

instance (b : OrderBook) (i : Nat) : Decidable (resting b i) :=
  inferInstanceAs (Decidable (i ∈ sideIds b.bids ∨ i ∈ sideIds b.asks))

theorem cancelInLevels_none_iff (i : Nat) :
    ∀ s : BookSide, cancelInLevels i s = none ↔ i ∉ sideIds s := by
  intro s
  induction s with
  | nil => simp [cancelInLevels, sideIds]
  | cons pl rest ih =>
    obtain ⟨p, l⟩ := pl
    rw [cancelInLevels]
    cases hf : l.orders.find? (fun o => o.id == i) with
    | some o =>
      dsimp only
      have hoi : o.id = i := by
        have := List.find?_some hf
        simpa using this
      have hom : o ∈ l.orders := List.mem_of_find?_eq_some hf
      constructor
      · intro hnone
        by_cases he : l.orders.eraseP (fun x => x.id == i) = [] <;> simp [he] at hnone
      · intro hmem
        exfalso
        apply hmem
        simp only [sideIds, List.flatMap_cons]
        apply List.mem_append.2
        left
        rw [← hoi]
        exact List.mem_map_of_mem Order.id hom
    | none =>
      dsimp only
      have hno : i ∉ l.orders.map Order.id := by
        intro hmem
        rcases List.mem_map.1 hmem with ⟨o, hom, hoi⟩
        have hcon := List.find?_eq_none.1 hf o hom
        simp [hoi] at hcon
      cases hr : cancelInLevels i rest with
      | some rest2 =>
        dsimp only
        constructor
        · intro hx
          exact absurd hx (by simp)
        · intro hmem
          exfalso
          have hmem2 : i ∈ sideIds rest := by
            by_contra hcon
            rw [← ih] at hcon
            rw [hr] at hcon
            exact absurd hcon (by simp)
          apply hmem
          simp only [sideIds, List.flatMap_cons]
          exact List.mem_append.2 (Or.inr hmem2)
      | none =>
        dsimp only
        constructor
        · intro _
          simp only [sideIds, List.flatMap_cons]
          intro hmem
          rcases List.mem_append.1 hmem with hx | hx
          · exact hno hx
          · exact (ih.1 hr) hx
        · intro _
          rfl

theorem eraseP_no_sat (p : Order → Bool) :
    ∀ l : List Order, l.countP p ≤ 1 → ∀ x ∈ l.eraseP p, ¬ p x = true := by
  intro l
  induction l with
  | nil => intro _ x hx; simp at hx
  | cons a tl ih =>
    intro hc x hx
    by_cases hpa : p a
    · rw [List.eraseP_cons_of_pos hpa] at hx
      rw [List.countP_cons_of_pos _ _ hpa] at hc
      have hz : tl.countP p = 0 := by omega
      have := List.countP_eq_zero.1 hz
      exact this x hx
    · rw [List.eraseP_cons_of_neg (by simpa using hpa)] at hx
      rcases List.mem_cons.1 hx with hc2 | hc2
      · rw [hc2]
        simpa using hpa
      · rw [List.countP_cons_of_neg _ _ (by simpa using hpa)] at hc
        exact ih hc x hc2

theorem cancelInLevels_some_not_mem (i : Nat) :
    ∀ (s s2 : BookSide), (sideIds s).count i ≤ 1 →
      cancelInLevels i s = some s2 → i ∉ sideIds s2 := by
  intro s
  induction s with
  | nil => intro s2 _ hsome; simp [cancelInLevels] at hsome
  | cons pl rest ih =>
    obtain ⟨p, l⟩ := pl
    intro s2 hcnt hsome
    rw [cancelInLevels] at hsome
    have hsplit : sideIds ((p, l) :: rest) = l.orders.map Order.id ++ sideIds rest := by
      simp [sideIds]
    rw [hsplit, List.count_append] at hcnt
    cases hf : l.orders.find? (fun o => o.id == i) with
    | some o =>
      rw [hf] at hsome
      dsimp only at hsome
      have hoi : o.id = i := by
        have := List.find?_some hf
        simpa using this
      have hom : o ∈ l.orders := List.mem_of_find?_eq_some hf
      have hmem1 : i ∈ l.orders.map Order.id := by
        rw [← hoi]
        exact List.mem_map_of_mem Order.id hom
      have hpos : 0 < (l.orders.map Order.id).count i := List.count_pos_iff.2 hmem1
      have hrest0 : (sideIds rest).count i = 0 := by omega
      have hrestnot : i ∉ sideIds rest := List.count_eq_zero.1 hrest0
      have hcmap : (l.orders.map Order.id).count i =
          l.orders.countP (fun x => x.id == i) := by
        rw [List.count, List.countP_map]
        rfl
      have hcntP : l.orders.countP (fun x => x.id == i) ≤ 1 := by
        rw [← hcmap]
        omega
      have herasesat := eraseP_no_sat (fun x => x.id == i) l.orders hcntP
      have herasenot : i ∉ (l.orders.eraseP (fun x => x.id == i)).map Order.id := by
        intro hx
        rcases List.mem_map.1 hx with ⟨x, hxm, hxi⟩
        have hfalse := herasesat x hxm
        simp at hfalse
        exact hfalse hxi
      by_cases he : l.orders.eraseP (fun x => x.id == i) = []
      · rw [if_pos he] at hsome
        have hs2 : rest = s2 := by injection hsome
        rw [← hs2]
        exact hrestnot
      · rw [if_neg he] at hsome
        have hs2 : (p, PriceLevel.mk (l.orders.eraseP (fun x => x.id == i))
            (l.total_qty - o.qty)) :: rest = s2 := by injection hsome
        rw [← hs2]
        simp only [sideIds, List.flatMap_cons]
        intro hmem
        rcases List.mem_append.1 hmem with hx | hx
        · exact herasenot hx
        · exact hrestnot hx
    | none =>
      rw [hf] at hsome
      dsimp only at hsome
      have hno : i ∉ l.orders.map Order.id := by
        intro hmem
        rcases List.mem_map.1 hmem with ⟨o, hom, hoi⟩
        have hcon := List.find?_eq_none.1 hf o hom
        simp [hoi] at hcon
      cases hr : cancelInLevels i rest with
      | some rest2 =>
        rw [hr] at hsome
        dsimp only at hsome
        have hs2 : (p, l) :: rest2 = s2 := by injection hsome
        have hrnot : i ∉ sideIds rest2 := ih rest2 (by omega) hr
        rw [← hs2]
        simp only [sideIds, List.flatMap_cons]
        intro hmem
        rcases List.mem_append.1 hmem with hx | hx
        · exact hno hx
        · exact hrnot hx
      | none =>
        rw [hr] at hsome
        exact absurd hsome (by simp)

/-- Claim C7 (spec-modelled): `cancel(id)` returns a boolean was-resting
outcome: cancelling an id with no resting order leaves the book untouched and
returns the not-found outcome; cancelling a resting id removes it and returns
success, so that an immediately repeated cancel of the same id is a no-op
returning not-found.  Ids are assumed unique, the spec's input contract. -/
theorem cancel_spec (b : OrderBook) (i : Nat)
    (hu : (sideIds b.bids).count i + (sideIds b.asks).count i ≤ 1) :
    (¬ resting b i → b.cancel i = (b, false)) ∧
    (resting b i → (b.cancel i).2 = true ∧
      ((b.cancel i).1).cancel i = ((b.cancel i).1, false)) := by
  constructor
  · intro hnr
    have hb : cancelInLevels i b.bids = none :=
      (cancelInLevels_none_iff i b.bids).2 (fun hx => hnr (Or.inl hx))
    have ha : cancelInLevels i b.asks = none :=
      (cancelInLevels_none_iff i b.asks).2 (fun hx => hnr (Or.inr hx))
    rw [OrderBook.cancel, hb, ha]
  · intro hr
    cases hcb : cancelInLevels i b.bids with
    | some bids2 =>
      have h1 : b.cancel i = (OrderBook.mk bids2 b.asks, true) := by
        rw [OrderBook.cancel, hcb]
      rw [h1]
      refine ⟨rfl, ?_⟩
      have hmemb : i ∈ sideIds b.bids := by
        by_contra hcon
        have hx := (cancelInLevels_none_iff i b.bids).2 hcon
        rw [hcb] at hx
        exact absurd hx (by simp)
      have hbnot : i ∉ sideIds bids2 :=
        cancelInLevels_some_not_mem i b.bids bids2 (by omega) hcb
      have hanot : i ∉ sideIds b.asks := by
        have hp : 0 < (sideIds b.bids).count i := List.count_pos_iff.2 hmemb
        have hz : (sideIds b.asks).count i = 0 := by omega
        exact List.count_eq_zero.1 hz
      have hb2 : cancelInLevels i bids2 = none :=
        (cancelInLevels_none_iff i bids2).2 hbnot
      have ha2 : cancelInLevels i b.asks = none :=
        (cancelInLevels_none_iff i b.asks).2 hanot
      rw [OrderBook.cancel]
      dsimp only
      rw [hb2, ha2]
    | none =>
      cases hca : cancelInLevels i b.asks with
      | some asks2 =>
        have h1 : b.cancel i = (OrderBook.mk b.bids asks2, true) := by
          rw [OrderBook.cancel, hcb, hca]
        rw [h1]
        refine ⟨rfl, ?_⟩
        have hmema : i ∈ sideIds b.asks := by
          by_contra hcon
          have hx := (cancelInLevels_none_iff i b.asks).2 hcon
          rw [hca] at hx
          exact absurd hx (by simp)
        have hanot : i ∉ sideIds asks2 :=
          cancelInLevels_some_not_mem i b.asks asks2 (by omega) hca
        have hbnot : i ∉ sideIds b.bids := (cancelInLevels_none_iff i b.bids).1 hcb
        have hb2 : cancelInLevels i b.bids = none :=
          (cancelInLevels_none_iff i b.bids).2 hbnot
        have ha2 : cancelInLevels i asks2 = none :=
          (cancelInLevels_none_iff i asks2).2 hanot
        rw [OrderBook.cancel]
        dsimp only
        rw [hb2, ha2]
      | none =>
        exfalso
        rcases hr with hx | hx
        · exact (cancelInLevels_none_iff i b.bids).1 hcb hx
        · exact (cancelInLevels_none_iff i b.asks).1 hca hx

/-- Witness for C7. -/
theorem cancel_spec_witness :
    (¬ resting (OrderBook.mk []
        [(100, PriceLevel.mk [Order.mk 1 Side.Sell 100 5 0] 5)]) 1 →
      (OrderBook.mk [] [(100, PriceLevel.mk [Order.mk 1 Side.Sell 100 5 0] 5)]).cancel 1 =
        (OrderBook.mk [] [(100, PriceLevel.mk [Order.mk 1 Side.Sell 100 5 0] 5)], false)) ∧
    (resting (OrderBook.mk []
        [(100, PriceLevel.mk [Order.mk 1 Side.Sell 100 5 0] 5)]) 1 →
      ((OrderBook.mk [] [(100, PriceLevel.mk [Order.mk 1 Side.Sell 100 5 0] 5)]).cancel 1).2
          = true ∧
        (((OrderBook.mk []
            [(100, PriceLevel.mk [Order.mk 1 Side.Sell 100 5 0] 5)]).cancel 1).1).cancel 1 =
          (((OrderBook.mk []
            [(100, PriceLevel.mk [Order.mk 1 Side.Sell 100 5 0] 5)]).cancel 1).1, false)) :=
  cancel_spec (OrderBook.mk [] [(100, PriceLevel.mk [Order.mk 1 Side.Sell 100 5 0] 5)]) 1
    (by decide)

/-! ### Price-time priority: the match consumes a prefix of the opposite side -/

/-- The opposite side's resting orders in priority order: best level first,
FIFO order within each level. -/
def flattenSide (s : BookSide) : List Order := s.flatMap (fun pl => pl.2.orders)

theorem flattenSide_cons (p : Int) (l : PriceLevel) (rest : BookSide) :
    flattenSide ((p, l) :: rest) = l.orders ++ flattenSide rest := by
  simp [flattenSide]

/-- The side of the book a taker matches against. -/
def oppositeSide (b : OrderBook) (sd : Side) : BookSide :=
  match sd with
  | Side.Buy => b.asks
  | Side.Sell => b.bids

/-- `x` is a strictly better price than `y` for resting orders matched by a
taker of the given side (lower for asks, higher for bids). -/
def betterPrice (sd : Side) (x y : Int) : Prop :=
  match sd with
  | Side.Buy => x < y
  | Side.Sell => y < x

/-- The emitted trades fill a prefix of the resting orders in order: the j-th
trade is against the j-th resting order, fully except possibly the last
trade. -/
def fillsPrefix (orders : List Order) (N : List Trade) : Prop :=
  N.length ≤ orders.length ∧
  ∀ (j : Nat) (t : Trade) (m : Order), N[j]? = some t → orders[j]? = some m →
    (t.maker_id = m.id ∧ 0 < t.qty ∧ t.qty ≤ m.qty ∧ (j + 1 < N.length → t.qty = m.qty))

theorem matchLevel_K (tid : Nat) (p : Int) (orders : List Order) :
    ∀ tq : Int, (∀ o ∈ orders, 0 < o.qty) →
      fillsPrefix orders ((matchLevel tid p tq orders []).2.2) ∧
      ((matchLevel tid p tq orders []).2.1 = [] →
        ((matchLevel tid p tq orders []).2.2.length = orders.length ∧
         ∀ (j : Nat) (t : Trade) (m : Order),
           ((matchLevel tid p tq orders []).2.2)[j]? = some t →
           orders[j]? = some m → t.qty = m.qty)) := by
  induction orders with
  | nil =>
    intro tq hpos
    refine ⟨⟨by simp [matchLevel], ?_⟩, ?_⟩
    · intro j t m ht hm
      simp [matchLevel] at ht
    · intro _
      refine ⟨by simp [matchLevel], ?_⟩
      intro j t m ht hm
      simp [matchLevel] at ht
  | cons maker rest ih =>
    intro tq hpos
    by_cases h1 : tq ≤ 0
    · refine ⟨⟨?_, ?_⟩, ?_⟩
      · simp [matchLevel, h1]
      · intro j t m ht hm
        simp [matchLevel, h1] at ht
      · intro hnil
        rw [matchLevel] at hnil
        simp only [if_pos h1] at hnil
        exact absurd hnil (by simp)
    · by_cases h2 : maker.qty - min tq maker.qty = 0
      · have hmin : min tq maker.qty = maker.qty := by
          have := min_le_right tq maker.qty
          omega
        have hunfold : matchLevel tid p tq (maker :: rest) [] =
            ((matchLevel tid p (tq - min tq maker.qty) rest []).1,
             (matchLevel tid p (tq - min tq maker.qty) rest []).2.1,
             Trade.mk tid maker.id p (min tq maker.qty) ::
               (matchLevel tid p (tq - min tq maker.qty) rest []).2.2) := by
          rw [matchLevel]
          simp only [if_neg h1, if_pos h2]
          rw [matchLevel_append tid p rest (tq - min tq maker.qty)
            ([] ++ [Trade.mk tid maker.id p (min tq maker.qty)])]
          simp
        obtain ⟨⟨hlen, hpt⟩, hfull⟩ := ih (tq - min tq maker.qty)
          (fun o ho => hpos o (List.mem_cons_of_mem _ ho))
        rw [hunfold]
        refine ⟨⟨?_, ?_⟩, ?_⟩
        · simpa using hlen
        · intro j t m ht hm
          cases j with
          | zero =>
            simp at ht hm
            rw [← ht, ← hm]
            refine ⟨rfl, ?_, ?_, ?_⟩
            · simp only
              have := hpos maker (List.mem_cons_self maker rest)
              omega
            · simp only
              exact min_le_right tq maker.qty
            · intro _
              simp only
              exact hmin
          | succ j2 =>
            rw [List.getElem?_cons_succ] at ht hm
            have := hpt j2 t m ht hm
            refine ⟨this.1, this.2.1, this.2.2.1, ?_⟩
            intro hj
            exact this.2.2.2 (by simpa using hj)
        · intro hnil
          simp only at hnil
          obtain ⟨hfl, hfp⟩ := hfull hnil
          refine ⟨by simpa using hfl, ?_⟩
          intro j t m ht hm
          cases j with
          | zero =>
            simp at ht hm
            rw [← ht, ← hm]
            simpa using hmin
          | succ j2 =>
            rw [List.getElem?_cons_succ] at ht hm
            exact hfp j2 t m ht hm
      · have hmin : min tq maker.qty = tq := by
          rcases le_total tq maker.qty with hle | hle
          · exact min_eq_left hle
          · exfalso
            apply h2
            rw [min_eq_right hle]
            ring
        have hunfold : matchLevel tid p tq (maker :: rest) [] =
            (tq - min tq maker.qty,
             Order.mk maker.id maker.side maker.price (maker.qty - min tq maker.qty)
               maker.ts_ns :: rest,
             [Trade.mk tid maker.id p (min tq maker.qty)]) := by
          rw [matchLevel]
          simp only [if_neg h1, if_neg h2]
          simp
        rw [hunfold]
        refine ⟨⟨?_, ?_⟩, ?_⟩
        · simp
        · intro j t m ht hm
          cases j with
          | zero =>
            simp at ht hm
            rw [← ht, ← hm]
            refine ⟨rfl, ?_, ?_, ?_⟩
            · simp only
              omega
            · simp only
              exact min_le_right tq maker.qty
            · intro hj
              simp at hj
          | succ j2 =>
            rw [List.getElem?_cons_succ] at ht
            simp at ht
        · intro hnil
          exact absurd hnil (by simp)

theorem fillsPrefix_extend (orders1 orders2 : List Order) (N : List Trade)
    (h : fillsPrefix orders1 N) : fillsPrefix (orders1 ++ orders2) N := by
  obtain ⟨hlen, hpt⟩ := h
  refine ⟨by simp; omega, ?_⟩
  intro j t m ht hm
  have hj : j < N.length := (List.getElem?_eq_some_iff.1 ht).1
  have hm1 : orders1[j]? = some m := by
    rw [List.getElem?_append] at hm
    simpa [Nat.lt_of_lt_of_le hj hlen] using hm
  exact hpt j t m ht hm1

theorem fillsPrefix_append (orders1 orders2 : List Order) (N1 N2 : List Trade)
    (h1 : fillsPrefix orders1 N1)
    (hfull : N1.length = orders1.length ∧
      ∀ (j : Nat) (t : Trade) (m : Order), N1[j]? = some t → orders1[j]? = some m →
        t.qty = m.qty)
    (h2 : fillsPrefix orders2 N2) :
    fillsPrefix (orders1 ++ orders2) (N1 ++ N2) := by
  obtain ⟨hlen1, hpt1⟩ := h1
  obtain ⟨hflen, hfpt⟩ := hfull
  obtain ⟨hlen2, hpt2⟩ := h2
  refine ⟨by simp; omega, ?_⟩
  intro j t m ht hm
  by_cases hj : j < N1.length
  · have ht1 : N1[j]? = some t := by
      rw [List.getElem?_append] at ht
      simpa [hj] using ht
    have hm1 : orders1[j]? = some m := by
      rw [List.getElem?_append] at hm
      simpa [show j < orders1.length by omega] using hm
    have hbase := hpt1 j t m ht1 hm1
    refine ⟨hbase.1, hbase.2.1, hbase.2.2.1, ?_⟩
    intro _
    exact hfpt j t m ht1 hm1
  · have hjge : N1.length ≤ j := by omega
    have ht2 : N2[j - N1.length]? = some t := by
      rw [List.getElem?_append_right hjge] at ht
      exact ht
    have hm2 : orders2[j - orders1.length]? = some m := by
      rw [List.getElem?_append_right (by omega)] at hm
      exact hm
    have hm2x : orders2[j - N1.length]? = some m := by
      rw [hflen]
      exact hm2
    have hbase := hpt2 (j - N1.length) t m ht2 hm2x
    refine ⟨hbase.1, hbase.2.1, hbase.2.2.1, ?_⟩
    intro hjlt
    apply hbase.2.2.2
    have hlt2 : j - N1.length + 1 < N2.length := by
      simp at hjlt
      omega
    exact hlt2

theorem matchSide_K (tid : Nat) (cross : Int → Bool) (lvls : BookSide) :
    ∀ tq : Int, (∀ pl ∈ lvls, ∀ o ∈ pl.2.orders, 0 < o.qty) →
      fillsPrefix (flattenSide lvls) ((matchSide tid cross tq lvls []).2.2) := by
  induction lvls with
  | nil =>
    intro tq hpos
    refine ⟨by simp [matchSide], ?_⟩
    intro j t m ht hm
    simp [matchSide] at ht
  | cons pl rest ih =>
    obtain ⟨p, l⟩ := pl
    intro tq hpos
    by_cases h1 : tq ≤ 0
    · rw [matchSide]
      simp only [if_pos h1]
      exact ⟨by simp, by intro j t m ht hm; simp at ht⟩
    · by_cases h2 : cross p
      · have hposlvl : ∀ o ∈ l.orders, 0 < o.qty :=
          fun o ho => hpos (p, l) (List.mem_cons_self _ _) o ho
        obtain ⟨hK1, hK2⟩ := matchLevel_K tid p l.orders tq hposlvl
        by_cases h3 : (matchLevel tid p tq l.orders []).2.1 = []
        · have hunfold : matchSide tid cross tq ((p, l) :: rest) [] =
              ((matchSide tid cross (matchLevel tid p tq l.orders []).1 rest []).1,
               (matchSide tid cross (matchLevel tid p tq l.orders []).1 rest []).2.1,
               (matchLevel tid p tq l.orders []).2.2 ++
                 (matchSide tid cross (matchLevel tid p tq l.orders []).1 rest []).2.2) := by
            rw [matchSide]
            simp only [if_neg h1, h2, not_true_eq_false, if_false]
            simp only [h3, if_pos trivial]
            rw [matchSide_append tid cross rest
              ((matchLevel tid p tq l.orders []).1)
              ((matchLevel tid p tq l.orders []).2.2)]
          rw [hunfold, flattenSide_cons]
          exact fillsPrefix_append l.orders (flattenSide rest)
            ((matchLevel tid p tq l.orders []).2.2)
            ((matchSide tid cross (matchLevel tid p tq l.orders []).1 rest []).2.2)
            hK1 (hK2 h3)
            (ih ((matchLevel tid p tq l.orders []).1)
              (fun x hx o ho => hpos x (List.mem_cons_of_mem _ hx) o ho))
        · have hunfold : matchSide tid cross tq ((p, l) :: rest) [] =
              ((matchLevel tid p tq l.orders []).1,
               (p, PriceLevel.mk (matchLevel tid p tq l.orders []).2.1
                 (l.total_qty - (tq - (matchLevel tid p tq l.orders []).1))) :: rest,
               (matchLevel tid p tq l.orders []).2.2) := by
            rw [matchSide]
            simp only [if_neg h1, h2, not_true_eq_false, if_false]
            simp [h3]
          rw [hunfold, flattenSide_cons]
          exact fillsPrefix_extend l.orders (flattenSide rest)
            ((matchLevel tid p tq l.orders []).2.2) hK1
      · rw [matchSide]
        simp only [if_neg h1, h2]
        simp only [Bool.false_eq_true, not_false_eq_true, if_pos]
        exact ⟨by simp, by intro j t m ht hm; simp at ht⟩

theorem nodup_getElem_inj (l : List Nat) (h : l.Nodup) (i j : Nat) (a : Nat)
    (hi : l[i]? = some a) (hj : l[j]? = some a) : i = j := by
  obtain ⟨hi1, hi2⟩ := List.getElem?_eq_some_iff.1 hi
  obtain ⟨hj1, hj2⟩ := List.getElem?_eq_some_iff.1 hj
  have hinj := List.nodup_iff_injective_get.1 h
  have heq : l.get ⟨i, hi1⟩ = l.get ⟨j, hj1⟩ := by simp [hi2, hj2]
  have := hinj heq
  simpa using this

theorem flatten_mono (lt : Int → Int → Bool)
    (htr : ∀ a b c : Int, lt a b = true → lt b c = true → lt a c = true) :
    ∀ s : BookSide, sortedSide lt s → (∀ pl ∈ s, goodLevel pl.1 pl.2) →
      ∀ (i j : Nat) (x y : Order), i ≤ j →
        (flattenSide s)[i]? = some x → (flattenSide s)[j]? = some y →
        x.price = y.price ∨ lt x.price y.price = true := by
  intro s
  induction s with
  | nil =>
    intro _ _ i j x y _ hx hy
    simp [flattenSide] at hx
  | cons pl rest ih =>
    obtain ⟨p, l⟩ := pl
    intro hs hg i j x y hij hx hy
    rw [flattenSide_cons] at hx hy
    have hgood := hg (p, l) (List.mem_cons_self _ _)
    have hkeys : sortedSide lt ((p, l) :: rest) = List.Chain' (fun a b => lt a b = true)
        (p :: rest.map Prod.fst) := rfl
    rw [hkeys] at hs
    haveI : IsTrans Int (fun a b => lt a b = true) := ⟨fun a b c hab hbc => htr a b c hab hbc⟩
    have hpair := List.chain'_iff_pairwise.1 hs
    by_cases hi : i < l.orders.length
    · have hxmem : x ∈ l.orders := by
        rw [List.getElem?_append] at hx
        simp only [hi, if_pos] at hx
        exact List.getElem?_mem hx
      have hxp : x.price = p := (hgood.2.2 x hxmem).2
      by_cases hj : j < l.orders.length
      · have hymem : y ∈ l.orders := by
          rw [List.getElem?_append] at hy
          simp only [hj, if_pos] at hy
          exact List.getElem?_mem hy
        left
        rw [hxp, (hgood.2.2 y hymem).2]
      · have hymem : y ∈ flattenSide rest := by
          rw [List.getElem?_append] at hy
          simp only [hj, if_neg, if_false] at hy
          exact List.getElem?_mem hy
        rcases List.mem_flatMap.1 hymem with ⟨pl2, hpl2, hym⟩
        have hyp : y.price = pl2.1 :=
          ((hg pl2 (List.mem_cons_of_mem _ hpl2)).2.2 y hym).2
        have hplt : lt p pl2.1 = true := by
          have hmemk : pl2.1 ∈ rest.map Prod.fst := List.mem_map_of_mem Prod.fst hpl2
          exact (List.pairwise_cons.1 hpair).1 pl2.1 hmemk
        right
        rw [hxp, hyp]
        exact hplt
    · have hjge : l.orders.length ≤ j := by omega
      have hige : l.orders.length ≤ i := by omega
      have hx2 : (flattenSide rest)[i - l.orders.length]? = some x := by
        rw [List.getElem?_append_right hige] at hx
        exact hx
      have hy2 : (flattenSide rest)[j - l.orders.length]? = some y := by
        rw [List.getElem?_append_right hjge] at hy
        exact hy
      have hrest_sorted : sortedSide lt rest := (List.chain'_cons'.1 hs).2
      exact ih hrest_sorted (fun z hz => hg z (List.mem_cons_of_mem _ hz))
        (i - l.orders.length) (j - l.orders.length) x y (by omega) hx2 hy2

theorem filter_sum_single (P : Trade → Bool) :
    ∀ (N : List Trade) (iA : Nat) (tA : Trade),
      N[iA]? = some tA → P tA = true →
      (∀ (j : Nat) (t : Trade), N[j]? = some t → P t = true → j = iA) →
      ((N.filter P).map Trade.qty).sum = tA.qty := by
  intro N
  induction N with
  | nil => intro iA tA h _ _; simp at h
  | cons t0 N2 ih =>
    intro iA tA hA hP huniq
    cases iA with
    | zero =>
      simp at hA
      have hfilterN2 : N2.filter P = [] := by
        rw [List.filter_eq_nil_iff]
        intro x hx hPx
        obtain ⟨j2, hj2⟩ := List.getElem?_of_mem hx
        have := huniq (j2 + 1) x (by rw [List.getElem?_cons_succ]; exact hj2) hPx
        simp at this
      rw [List.filter_cons, if_pos (by rw [hA]; exact hP), hfilterN2]
      simp [hA]
    | succ i2 =>
      rw [List.getElem?_cons_succ] at hA
      have hP0 : ¬ P t0 = true := by
        intro hP0
        have := huniq 0 t0 (by simp) hP0
        simp at this
      rw [List.filter_cons, if_neg hP0]
      apply ih i2 tA hA hP
      intro j t hj hPt
      have := huniq (j + 1) t (by rw [List.getElem?_cons_succ]; exact hj) hPt
      omega

theorem priority_core (tid : Nat) (cross : Int → Bool) (lvls : BookSide)
    (tq : Int) (A B : Order) (iA iB : Nat)
    (hg : ∀ pl ∈ lvls, goodLevel pl.1 pl.2)
    (hnd : ((flattenSide lvls).map Order.id).Nodup)
    (hA : (flattenSide lvls)[iA]? = some A)
    (hB : (flattenSide lvls)[iB]? = some B)
    (hiAiB : iA < iB) :
    ∀ (j : Nat) (t : Trade), ((matchSide tid cross tq lvls []).2.2)[j]? = some t →
      t.maker_id = B.id →
      (((((matchSide tid cross tq lvls []).2.2).take j).filter
          (fun s => s.maker_id == A.id)).map Trade.qty).sum = A.qty := by
  intro j t htj htb
  have hpos : ∀ pl ∈ lvls, ∀ o ∈ pl.2.orders, 0 < o.qty :=
    fun pl hpl o ho => ((hg pl hpl).2.2 o ho).1
  obtain ⟨hKlen, hKpt⟩ := matchSide_K tid cross lvls tq hpos
  have hjlen : j < ((matchSide tid cross tq lvls []).2.2).length :=
    (List.getElem?_eq_some_iff.1 htj).1
  have hjF : j < (flattenSide lvls).length := lt_of_lt_of_le hjlen hKlen
  have hFj : (flattenSide lvls)[j]? = some ((flattenSide lvls).get ⟨j, hjF⟩) := by
    simp
  have hptj := hKpt j t ((flattenSide lvls).get ⟨j, hjF⟩) htj hFj
  have hidj : ((flattenSide lvls).map Order.id)[j]? = some B.id := by
    rw [List.getElem?_map, hFj]
    show some (((flattenSide lvls).get ⟨j, hjF⟩).id) = some B.id
    rw [← hptj.1, htb]
  have hidB : ((flattenSide lvls).map Order.id)[iB]? = some B.id := by
    rw [List.getElem?_map, hB]
    rfl
  have hjiB : j = iB := nodup_getElem_inj ((flattenSide lvls).map Order.id) hnd j iB B.id
    hidj hidB
  have hiAj : iA < j := by omega
  have hiAN : iA < ((matchSide tid cross tq lvls []).2.2).length := by omega
  have htA : ((matchSide tid cross tq lvls []).2.2)[iA]? =
      some (((matchSide tid cross tq lvls []).2.2).get ⟨iA, hiAN⟩) := by
    simp
  have hptA := hKpt iA (((matchSide tid cross tq lvls []).2.2).get ⟨iA, hiAN⟩) A htA hA
  have hfullA : (((matchSide tid cross tq lvls []).2.2).get ⟨iA, hiAN⟩).qty = A.qty :=
    hptA.2.2.2 (by omega)
  refine (filter_sum_single (fun s => s.maker_id == A.id)
    (((matchSide tid cross tq lvls []).2.2).take j) iA
    (((matchSide tid cross tq lvls []).2.2).get ⟨iA, hiAN⟩) ?_ ?_ ?_).trans hfullA
  · rw [List.getElem?_take]
    simp [hiAj]
  · have h1 := hptA.1
    simp only [List.get_eq_getElem] at h1
    simp [h1]
  · intro j2 t2 hj2 hPt2
    have hlt : j2 < j := by
      have hx := (List.getElem?_eq_some_iff.1 hj2).1
      simp [List.length_take] at hx
      omega
    have hj2N : ((matchSide tid cross tq lvls []).2.2)[j2]? = some t2 := by
      rw [List.getElem?_take] at hj2
      simpa [hlt] using hj2
    have hj2len : j2 < ((matchSide tid cross tq lvls []).2.2).length :=
      (List.getElem?_eq_some_iff.1 hj2N).1
    have hj2F : j2 < (flattenSide lvls).length := lt_of_lt_of_le hj2len hKlen
    have hFj2 : (flattenSide lvls)[j2]? = some ((flattenSide lvls).get ⟨j2, hj2F⟩) := by
      simp
    have hptj2 := hKpt j2 t2 ((flattenSide lvls).get ⟨j2, hj2F⟩) hj2N hFj2
    have hPeq : t2.maker_id = A.id := by simpa using hPt2
    have hidj2 : ((flattenSide lvls).map Order.id)[j2]? = some A.id := by
      rw [List.getElem?_map, hFj2]
      show some (((flattenSide lvls).get ⟨j2, hj2F⟩).id) = some A.id
      rw [← hptj2.1, hPeq]
    have hidA : ((flattenSide lvls).map Order.id)[iA]? = some A.id := by
      rw [List.getElem?_map, hA]
      rfl
    exact nodup_getElem_inj ((flattenSide lvls).map Order.id) hnd j2 iA A.id hidj2 hidA

/-- Claim C3: matching consumes resting orders in price-time priority.  For a
well-formed book with unique resting ids, take any two resting orders A and B
on the side the taker matches against (positions `iA`, `iB` in best-first,
FIFO-within-level order).  If A's price is strictly better than B's, or they
rest at the same price with A ahead of B, then at every index `j` where the
emitted trade list fills B, the trades before `j` already contain fills
against A summing to A's full quantity: A is completely filled before B
receives any fill. -/
theorem price_time_priority (b : OrderBook) (inc A B : Order) (iA iB : Nat)
    (hinv : Inv b)
    (hnd : ((flattenSide (oppositeSide b inc.side)).map Order.id).Nodup)
    (hA : (flattenSide (oppositeSide b inc.side))[iA]? = some A)
    (hB : (flattenSide (oppositeSide b inc.side))[iB]? = some B)
    (hprio : betterPrice inc.side A.price B.price ∨ (A.price = B.price ∧ iA < iB)) :
    ∀ (j : Nat) (t : Trade), ((b.matchOrder inc []).2.2)[j]? = some t →
      t.maker_id = B.id →
      (((((b.matchOrder inc []).2.2).take j).filter
          (fun s => s.maker_id == A.id)).map Trade.qty).sum = A.qty := by
  obtain ⟨hsb, hsa, hgb, hga, hnc⟩ := hinv
  obtain ⟨iid, isd, ipr, iq, its⟩ := inc
  by_cases hq : iq ≤ 0
  · intro j t htj htb
    exfalso
    have he : OrderBook.matchOrder b (Order.mk iid isd ipr iq its) [] =
        (b, Order.mk iid isd ipr iq its, []) := by
      simp [OrderBook.matchOrder, hq]
    rw [he] at htj
    simp at htj
  · cases isd with
    | Buy =>
      have hA2 : (flattenSide b.asks)[iA]? = some A := hA
      have hB2 : (flattenSide b.asks)[iB]? = some B := hB
      have hnd2 : ((flattenSide b.asks).map Order.id).Nodup := hnd
      have hiAiB : iA < iB := by
        rcases hprio with hbp | ⟨heq, hlt⟩
        · have hbp2 : A.price < B.price := hbp
          by_contra hge
          push_neg at hge
          have hmono := flatten_mono askLt
            (fun a b c hab hbc => by simp [askLt] at hab hbc ⊢; omega)
            b.asks hsa hga iB iA B A hge hB2 hA2
          rcases hmono with he2 | hlt2
          · omega
          · simp [askLt] at hlt2
            omega
        · exact hlt
      intro j t htj htb
      rw [matchOrder_buy b iid ipr iq its [] hq] at htj ⊢
      dsimp only at htj ⊢
      exact priority_core iid (fun p => ¬ (ipr < p)) b.asks iq A B iA iB hga hnd2
        hA2 hB2 hiAiB j t htj htb
    | Sell =>
      have hA2 : (flattenSide b.bids)[iA]? = some A := hA
      have hB2 : (flattenSide b.bids)[iB]? = some B := hB
      have hnd2 : ((flattenSide b.bids).map Order.id).Nodup := hnd
      have hiAiB : iA < iB := by
        rcases hprio with hbp | ⟨heq, hlt⟩
        · have hbp2 : B.price < A.price := hbp
          by_contra hge
          push_neg at hge
          have hmono := flatten_mono bidLt
            (fun a b c hab hbc => by simp [bidLt] at hab hbc ⊢; omega)
            b.bids hsb hgb iB iA B A hge hB2 hA2
          rcases hmono with he2 | hlt2
          · omega
          · simp [bidLt] at hlt2
            omega
        · exact hlt
      intro j t htj htb
      rw [matchOrder_sell b iid ipr iq its [] hq] at htj ⊢
      dsimp only at htj ⊢
      exact priority_core iid (fun p => ¬ (ipr > p)) b.bids iq A B iA iB hgb hnd2
        hA2 hB2 hiAiB j t htj htb

/-- Witness for C3 (spec scenario S3: same price, time priority). -/
theorem price_time_priority_witness :
    ((((((OrderBook.mk []
        [(100, PriceLevel.mk
          [Order.mk 1 Side.Sell 100 3 0, Order.mk 2 Side.Sell 100 7 0] 10)]).matchOrder
        (Order.mk 3 Side.Buy 100 4 0) []).2.2).take 1).filter
        (fun s => s.maker_id == (Order.mk 1 Side.Sell 100 3 0).id)).map Trade.qty).sum =
      (Order.mk 1 Side.Sell 100 3 0).qty :=
  price_time_priority
    (OrderBook.mk [] [(100, PriceLevel.mk
      [Order.mk 1 Side.Sell 100 3 0, Order.mk 2 Side.Sell 100 7 0] 10)])
    (Order.mk 3 Side.Buy 100 4 0)
    (Order.mk 1 Side.Sell 100 3 0) (Order.mk 2 Side.Sell 100 7 0) 0 1
    (by decide) (by decide) (by decide) (by decide)
    (Or.inr (by decide)) 1 (Trade.mk 3 2 100 1) (by decide) (by decide)

end LOB
